import Mathlib

/-!
Shallow embedding of `src/pyvips/voperation.py`: the dynamic invoker
(`Operation.call`), introspection/classification (`Introspect.__init__`),
argument marshaling (`Operation.set`), the `_find_inside` traversal, and the
reference-propagation machinery, together with theorems settling the frozen
claims about this code.

ProcessingUnits (`pyvips.Image` wrappers) live in a heap-style `Store`; a
`Value.image id` is a handle into that store.  The native engine is an
external collaborator and is modelled by an `Engine` record supplying the
outcome of `set_string`, the build result, output values and the engine-side
mutation of modify-in-place arguments.
-/

set_option maxHeartbeats 1000000

namespace Pyvips

/-! ### VipsArgumentFlags (values copied from the source) -/

def _REQUIRED : Nat := 1
def _CONSTRUCT : Nat := 2
def _SET_ONCE : Nat := 4
def _SET_ALWAYS : Nat := 8
def _INPUT : Nat := 16
def _OUTPUT : Nat := 32
def _DEPRECATED : Nat := 64
def _MODIFY : Nat := 128

/-- `(flags & bit) != 0`, the flag test used throughout the source. -/
def hasFlag (flags bit : Nat) : Bool := flags &&& bit != 0

/-! ### ProcessingUnits and values -/

/-- A `pyvips.Image` wrapper: its backing pixel data and its `_references`
set of buffer identifiers (shared, not owned). -/
structure Image where
  data : List Int
  references : Finset Nat
deriving DecidableEq

/-- The heap of caller-visible ProcessingUnits; a `Value.image id` indexes
into it. -/
abbrev Store := List Image

def emptyImage : Image := ⟨[], ∅⟩

def refsAt (store : Store) (id : Nat) : Finset Nat :=
  (store.getD id emptyImage).references

def dataAt (store : Store) (id : Nat) : List Int :=
  (store.getD id emptyImage).data

/-- The loosely-typed host values flowing through `Operation.call`:
ProcessingUnit handles, numeric/string/boolean constants, and
lists/tuples (both traversed identically by `_find_inside`). -/
inductive Value where
  | image (id : Nat)
  | num (n : Int)
  | str (s : String)
  | boolean (b : Bool)
  | arr (elts : List Value)
deriving Repr

mutual

def valueBEq : Value → Value → Bool
  | .image a, .image b => a == b
  | .num a, .num b => a == b
  | .str a, .str b => a == b
  | .boolean a, .boolean b => a == b
  | .arr a, .arr b => valueBEqL a b
  | _, _ => false

def valueBEqL : List Value → List Value → Bool
  | [], [] => true
  | x :: xs, y :: ys => valueBEq x y && valueBEqL xs ys
  | _, _ => false

end

mutual

theorem valueBEq_iff (a b : Value) : valueBEq a b = true ↔ a = b := by
  cases a <;> cases b <;>
    simp only [valueBEq, beq_iff_eq, Value.image.injEq, Value.num.injEq,
      Value.str.injEq, Value.boolean.injEq, Value.arr.injEq,
      Bool.false_eq_true, false_iff, reduceCtorEq, not_false_eq_true]
  case arr.arr xs ys => exact valueBEqL_iff xs ys

theorem valueBEqL_iff (as bs : List Value) : valueBEqL as bs = true ↔ as = bs := by
  cases as <;> cases bs <;>
    simp only [valueBEqL, Bool.and_eq_true, List.cons.injEq,
      Bool.false_eq_true, false_iff, reduceCtorEq, not_false_eq_true]
  case cons.cons x xs y ys =>
    exact and_congr (valueBEq_iff x y) (valueBEqL_iff xs ys)

end

instance : DecidableEq Value := fun a b =>
  decidable_of_iff (valueBEq a b = true) (valueBEq_iff a b)

def isImageValue : Value → Bool
  | .image _ => true
  | _ => false

/-! ### `_find_inside`

The source's `_find_inside(pred, thing)` tests the predicate on the node
itself, then recurses into list/tuple elements left to right, returning the
first hit.  It is used with stateful predicates (Python closures mutating
`references` or the images' `_references`), so the embedding threads a
state through the predicate. -/

mutual

def findInsideSt {σ : Type} (pred : σ → Value → σ × Bool) (s : σ) (v : Value) :
    σ × Option Value :=
  match pred s v with
  | (s1, true) => (s1, some v)
  | (s1, false) =>
    match v with
    | .arr elts => findInsideStL pred s1 elts
    | _ => (s1, none)

def findInsideStL {σ : Type} (pred : σ → Value → σ × Bool) (s : σ) (vs : List Value) :
    σ × Option Value :=
  match vs with
  | [] => (s, none)
  | x :: rest =>
    match findInsideSt pred s x with
    | (s1, some r) => (s1, some r)
    | (s1, none) => findInsideStL pred s1 rest

end

/-- `_find_inside` with a pure predicate (the `match_image` search). -/
def _find_inside (pred : Value → Bool) (v : Value) : Option Value :=
  (findInsideSt (fun (u : Unit) x => (u, pred x)) () v).2

/-- The `add_reference` closure from `Operation.call`: accumulate each found
image's `_references` into the call-scoped set; always report "not found"
so the traversal visits every node. -/
def add_reference (store : Store) (refs : Finset Nat) (v : Value) :
    Finset Nat × Bool :=
  match v with
  | .image id => (refs ∪ refsAt store id, false)
  | _ => (refs, false)

/-- `_find_inside(add_reference, value)`: the reference-collection pass. -/
def collectRefs (store : Store) (refs : Finset Nat) (v : Value) : Finset Nat :=
  (findInsideSt (add_reference store) refs v).1

/-- The `set_reference` closure from `Operation.call`: union the accumulated
references into each found image's own `_references`. -/
def set_reference (refs : Finset Nat) (store : Store) (v : Value) :
    Store × Bool :=
  match v with
  | .image id =>
    (store.set id ⟨dataAt store id, refsAt store id ∪ refs⟩, false)
  | _ => (store, false)

/-- `_find_inside(set_reference, value)`: the reference-attachment pass. -/
def propagateRefs (refs : Finset Nat) (store : Store) (v : Value) : Store :=
  (findInsideSt (set_reference refs) store v).1

/-- The reference-attachment pass over the elements of a sequence. -/
def propagateRefsL (refs : Finset Nat) (store : Store) (vs : List Value) : Store :=
  (findInsideStL (set_reference refs) store vs).1

/-! ### Specification-level views of the traversal (used to state claims) -/

mutual

/-- All ProcessingUnit ids occurring in a value, in depth-first preorder. -/
def unitIds : Value → List Nat
  | .image id => [id]
  | .arr elts => unitIdsL elts
  | _ => []

def unitIdsL : List Value → List Nat
  | [] => []
  | x :: rest => unitIds x ++ unitIdsL rest

end

mutual

/-- Depth-first preorder flattening of a value tree. -/
def flattenPre : Value → List Value
  | .arr elts => Value.arr elts :: flattenPreL elts
  | v => [v]

def flattenPreL : List Value → List Value
  | [] => []
  | x :: rest => flattenPre x ++ flattenPreL rest

end

/-- Spec-level reading of step 4: the match unit is the first ProcessingUnit
in the depth-first, left-to-right preorder traversal of the positional
arguments. -/
def specFirstUnit (args : List Value) : Option Value :=
  (flattenPreL args).find? isImageValue

/-- Union of the `references` sets of the given ProcessingUnits. -/
def refsUnionL (store : Store) : List Nat → Finset Nat
  | [] => ∅
  | id :: rest => refsAt store id ∪ refsUnionL store rest

/-- Spec-level reference set of a value: union of the `references` of every
ProcessingUnit reachable inside it. -/
def valueRefs (store : Store) (v : Value) : Finset Nat :=
  refsUnionL store (unitIds v)

/-- Spec-level union of the reference sets of every ProcessingUnit reachable
among a list of input values (constants contribute nothing). -/
def accRefs (store : Store) : List Value → Finset Nat
  | [] => ∅
  | v :: rest => valueRefs store v ∪ accRefs store rest

/-! ### Errors

`Operation.call` raises `pyvips.Error` with a format-string message at four
sites; a missing key in `intro.details` additionally raises a Python
`KeyError`, and shape mismatches during marshaling raise Python
`TypeError`/`AttributeError`.  Constructors carry the data of the
corresponding format string; `Err.message` renders the exact text. -/

inductive Err where
  | needsArguments (op : String) (expected given : Nat)
  | unableToCall (op : String)
  | unsupportedOption (op name : String)
  | keyError (key : String)
  | typeError
deriving DecidableEq, Repr

def Err.message : Err → String
  | .needsArguments op e g => s!"{op} needs {e} arguments, but {g} given"
  | .unableToCall op => s!"unable to call {op}"
  | .unsupportedOption op name => s!"{op} does not support optional argument {name}"
  | .keyError key => key
  | .typeError => "type mismatch"

/-! ### Declared argument types -/

/-- The slice of the GType lattice `Operation.set` inspects: image,
array-of-image, or anything else. -/
inductive GType where
  | image
  | arrayImage
  | other (tag : Nat)
deriving DecidableEq, Repr

/-! ### Constant promotion and defensive copy (modelled collaborators) -/

/-- Modelled from the spec: `pyvips.Image._imageize` is not under `src/`
(only its caller `Operation.set` is).  Per spec step 4, a ProcessingUnit
passes through unchanged; a scalar constant promoted against the match unit
becomes a fresh unit adopting the match unit's shape, uniformly filled; an
array of scalars becomes a fresh one-unit-per-channel construction; other
shapes fail as a type mismatch.  Constants carry empty reference sets. -/
def _imageize (store : Store) (m : Nat) (v : Value) : Option (Store × Value) :=
  match v with
  | .image _ => some (store, v)
  | .num c =>
    some (store ++ [⟨(dataAt store m).map (fun _ => c), ∅⟩], .image store.length)
  | .boolean b =>
    some (store ++ [⟨(dataAt store m).map (fun _ => if b then 1 else 0), ∅⟩],
      .image store.length)
  | .arr elts =>
    match elts.mapM (fun x => match x with | .num c => some c | _ => none) with
    | some cs =>
      some (store ++ [⟨cs.flatMap (fun c => (dataAt store m).map (fun _ => c)), ∅⟩],
        .image store.length)
    | none => none
  | .str _ => none

/-- Modelled from the spec: `value.copy().copy_memory()` is not under `src/`.
Per the spec, the incoming ProcessingUnit is deep-copied to a normalized,
unshared backing buffer: a fresh unit with the same pixel data; its
`references` are shared by construction, so the copy keeps them. -/
def copyToMemory (store : Store) (id : Nat) : Store × Nat :=
  (store ++ [⟨dataAt store id, refsAt store id⟩], store.length)

/-- `_imageize` mapped over the elements of an array-of-image argument (the
list comprehension in `Operation.set`). -/
def imageizeList (store : Store) (m : Nat) : List Value → Option (Store × List Value)
  | [] => some (store, [])
  | x :: rest =>
    match _imageize store m x with
    | none => none
    | some (store1, y) =>
      match imageizeList store1 m rest with
      | none => none
      | some (store2, ys) => some (store2, y :: ys)

/-- The promotion half of `Operation.set`: if a match unit exists and the
declared type wants an image, `_imageize` the value; if it wants an image
array, `_imageize` each element; otherwise leave the value alone. -/
def promoteValue (store : Store) (matchImage : Option Nat) (gtype : GType)
    (value : Value) : Except Err (Store × Value) :=
  match matchImage with
  | some m =>
    match gtype with
    | .image =>
      match _imageize store m value with
      | some sv => .ok sv
      | none => .error Err.typeError
    | .arrayImage =>
      match value with
      | .arr elts =>
        match imageizeList store m elts with
        | some (store1, ys) => .ok (store1, Value.arr ys)
        | none => .error Err.typeError
      | _ => .error Err.typeError
    | .other _ => .ok (store, value)
  | none => .ok (store, value)

/-- `Operation.set(name, flags, match_image, value)`: promote constants when
the declared type wants an image (or an image array) and a match unit
exists, then defensively copy modify-in-place arguments before they are set
on the operation.  Returns the extended store and the value actually set. -/
def opSet (store : Store) (matchImage : Option Nat) (gtype : GType)
    (flags : Nat) (value : Value) : Except Err (Store × Value) :=
  match promoteValue store matchImage gtype value with
  | .error e => .error e
  | .ok (store, value) =>
    -- MODIFY args need to be copied before they are set
    if hasFlag flags _MODIFY then
      match value with
      | .image id =>
        let (store1, j) := copyToMemory store id
        .ok (store1, Value.image j)
      | _ => .error Err.typeError
    else
      .ok (store, value)

/-! ### Introspection (`Introspect.__init__`) -/

structure ArgDetail where
  name : String
  flags : Nat
  gtype : GType
deriving DecidableEq, Repr

/-- The four classification lists built by the loop at the end of
`Introspect.__init__`. -/
structure ClassLists where
  required_input : List String
  optional_input : List String
  required_output : List String
  optional_output : List String
deriving DecidableEq, Repr

/-- One iteration of the classification loop, in source order. -/
def classifyStep (acc : ClassLists) (arg : String × Nat) : ClassLists :=
  let name := arg.1
  let flags := arg.2
  let acc :=
    if hasFlag flags _INPUT && hasFlag flags _REQUIRED &&
        !hasFlag flags _DEPRECATED then
      let acc := { acc with required_input := acc.required_input ++ [name] }
      -- required inputs which we MODIFY are also required outputs
      if hasFlag flags _MODIFY then
        { acc with required_output := acc.required_output ++ [name] }
      else acc
    else acc
  let acc :=
    if hasFlag flags _OUTPUT && hasFlag flags _REQUIRED &&
        !hasFlag flags _DEPRECATED then
      { acc with required_output := acc.required_output ++ [name] }
    else acc
  -- we let deprecated optional args through, but warn if they get used
  let acc :=
    if hasFlag flags _INPUT && !hasFlag flags _REQUIRED then
      { acc with optional_input := acc.optional_input ++ [name] }
    else acc
  if hasFlag flags _OUTPUT && !hasFlag flags _REQUIRED then
    { acc with optional_output := acc.optional_output ++ [name] }
  else acc

def classify (arguments : List (String × Nat)) : ClassLists :=
  arguments.foldl classifyStep ⟨[], [], [], []⟩

/-- `name.replace('-', '_')`: libvips separates name parts with `-`, Python
needs `_`; replacing a single character is a character-wise map. -/
def normalizeArgName (s : String) : String :=
  ⟨s.data.map (fun c => if c = '-' then '_' else c)⟩

/-- The `add_args` filter: keep construct-time arguments only, replacing
`-` with `_` in names. -/
def addArgsFilter (raw : List (String × Nat)) : List (String × Nat) :=
  raw.filterMap (fun a =>
    if hasFlag a.2 _CONSTRUCT then some (normalizeArgName a.1, a.2) else none)

/-- The `self.details` dict: built by a loop over `arguments`, so a later
duplicate name overwrites an earlier one. -/
def buildDetails (arguments : List (String × Nat)) (typeof : String → GType) :
    String → Option ArgDetail :=
  arguments.foldl
    (fun acc a => fun k => if k = a.1 then some ⟨a.1, a.2, typeof a.1⟩ else acc k)
    (fun _ => none)

instance {ε α : Type} [DecidableEq ε] [DecidableEq α] : DecidableEq (Except ε α)
  | .error e1, .error e2 =>
    if h : e1 = e2 then .isTrue (by rw [h]) else .isFalse (by simp [h])
  | .error _, .ok _ => .isFalse (by simp)
  | .ok _, .error _ => .isFalse (by simp)
  | .ok a, .ok b =>
    if h : a = b then .isTrue (by rw [h]) else .isFalse (by simp [h])

/-- The introspection record for one operation. -/
structure Introspect where
  name : String
  arguments : List (String × Nat)
  details : String → Option ArgDetail
  required_input : List String
  optional_input : List String
  required_output : List String
  optional_output : List String

/-- `Introspect.__init__`: enumerate construct args, build the details dict
and the four classification lists.  `rawArgs` is what the engine's
`vips_object_get_args` reports; `typeof` is `op.get_typeof`. -/
def mkIntrospect (opName : String) (rawArgs : List (String × Nat))
    (typeof : String → GType) : Introspect :=
  let arguments := addArgsFilter rawArgs
  let c := classify arguments
  { name := opName
    arguments := arguments
    details := buildDetails arguments typeof
    required_input := c.required_input
    optional_input := c.optional_input
    required_output := c.required_output
    optional_output := c.optional_output }

/-! ### The native engine (external collaborator) -/

/-- What a successful `vips_cache_operation_build` yields: the fresh
ProcessingUnits the engine allocates (appended to the store at build time),
the value `op.get(name)` returns for each output name, and the engine-side
rewrite of the pixel data of every modify-in-place argument that was set. -/
structure BuildOut where
  newUnits : List Image
  outputs : String → Value
  mutateData : List Int → List Int

/-- The engine as seen by one `Operation.call`: the outcome of
`op.set_string` per option value, and the build outcome (`none` models a
build failure). -/
structure Engine where
  setStringOk : Value → Bool
  buildResult : Option BuildOut

/-- The `(name, flags, value)` triples actually set on the operation. -/
abbrev OpArgs := List (String × Nat × Value)

/-! ### The invocation pipeline (`Operation.call`) -/

/-- The required-input loop: for each `(name, value)` pair from
`zip(intro.required_input, args)`, run `_find_inside(add_reference, value)`,
look up the argument's flags in `intro.details`, and `op.set` it. -/
def setRequiredLoop (intro : Introspect) (mi : Option Nat) :
    Store → Finset Nat → List (String × Value) → OpArgs →
    Except Err (Store × Finset Nat × OpArgs)
  | store, refs, [], acc => .ok (store, refs, acc)
  | store, refs, (name, value) :: rest, acc =>
    let refs := collectRefs store refs value
    match intro.details name with
    | none => .error (Err.keyError name)
    | some details =>
      match opSet store mi details.gtype details.flags value with
      | .error e => .error e
      | .ok (store, v) =>
        setRequiredLoop intro mi store refs rest (acc ++ [(name, details.flags, v)])

/-- The kwargs loop: look the name up in `intro.details` (a plain dict
access, so an unknown name raises `KeyError` here), then reject names not
in `optional_input`/`optional_output` with the unsupported-option error
(deprecated names only produce a log line), then accumulate references and
`op.set` the value. -/
def setKwargsLoop (intro : Introspect) (mi : Option Nat) :
    Store → Finset Nat → List (String × Value) → OpArgs →
    Except Err (Store × Finset Nat × OpArgs)
  | store, refs, [], acc => .ok (store, refs, acc)
  | store, refs, (name, value) :: rest, acc =>
    match intro.details name with
    | none => .error (Err.keyError name)
    | some details =>
      if name ∉ intro.optional_input ∧ name ∉ intro.optional_output then
        .error (Err.unsupportedOption intro.name name)
      else
        let refs := collectRefs store refs value
        match opSet store mi details.gtype details.flags value with
        | .error e => .error e
        | .ok (store, v) =>
          setKwargsLoop intro mi store refs rest (acc ++ [(name, details.flags, v)])

/-- The engine-side effect of building: each modify-in-place argument that
was set has its backing data rewritten in place (the argument set is the
defensive copy, never the caller's unit). -/
def mutateModifyArgs (mutFn : List Int → List Int) : Store → OpArgs → Store
  | store, [] => store
  | store, (_, flags, v) :: rest =>
    let store :=
      if hasFlag flags _MODIFY then
        match v with
        | .image id => store.set id ⟨mutFn (dataAt store id), refsAt store id⟩
        | _ => store
      else store
    mutateModifyArgs mutFn store rest

/-- The required-output loop: `op.get` each name in order and run
`_find_inside(set_reference, value)` on the result. -/
def readOutputs (bo : BuildOut) (refs : Finset Nat) :
    Store → List String → Store × List Value
  | store, [] => (store, [])
  | store, name :: rest =>
    let value := bo.outputs name
    let store := propagateRefs refs store value
    let (store, vs) := readOutputs bo refs store rest
    (store, value :: vs)

/-- The optional-output loop: every `optional_output` name that was supplied
as a kwargs key is read and gets references attached, in declaration
order. -/
def readOptOutputs (bo : BuildOut) (refs : Finset Nat) (kwKeys : List String) :
    Store → List String → Store × List (String × Value)
  | store, [] => (store, [])
  | store, name :: rest =>
    if name ∈ kwKeys then
      let value := bo.outputs name
      let store := propagateRefs refs store value
      let (store, d) := readOptOutputs bo refs kwKeys store rest
      (store, (name, value) :: d)
    else readOptOutputs bo refs kwKeys store rest

/-- One element of the Python result list: a plain output value, or the
dict of requested optional outputs appended at the end. -/
inductive ResItem where
  | val (v : Value)
  | opts (d : List (String × Value))
deriving DecidableEq, Repr

/-- The shape `Operation.call` returns: `None`, a single unwrapped element,
or the whole result list. -/
inductive CallRet where
  | nothing
  | single (r : ResItem)
  | many (rs : List ResItem)
deriving DecidableEq, Repr

def collapseResult (result : List ResItem) : CallRet :=
  match result with
  | [] => CallRet.nothing
  | [x] => CallRet.single x
  | rs => CallRet.many rs

/-- The match-unit search over the positional-argument tuple, as an id into
the store. -/
def matchImageId (args : List Value) : Option Nat :=
  match _find_inside isImageValue (Value.arr args) with
  | some (.image id) => some id
  | _ => none

/-- The pure tail of the pipeline after a successful build: engine-side
mutation of modify-in-place arguments, allocation of the engine's fresh
units, output reads with reference attachment, and result collapsing. -/
def finishCall (bo : BuildOut) (intro : Introspect) (store : Store)
    (refs : Finset Nat) (opArgs : OpArgs) (kwKeys : List String) :
    Store × CallRet :=
  let store := mutateModifyArgs bo.mutateData store opArgs
  let store := store ++ bo.newUnits
  let (store, outs) := readOutputs bo refs store intro.required_output
  let (store, opts) := readOptOutputs bo refs kwKeys store intro.optional_output
  let result := outs.map ResItem.val
  let result := if opts.length > 0 then result ++ [ResItem.opts opts] else result
  (store, collapseResult result)

/-- `Operation.call` after the `string_options` kwarg has been popped:
arity check, `set_string`, match-unit search, required-input and kwargs
marshaling, build, output reads with reference attachment, and result
collapsing. -/
def callAfterPop (intro : Introspect) (eng : Engine) (store : Store)
    (args : List Value) (string_options : Value)
    (kwargs : List (String × Value)) : Except Err (Store × CallRet) :=
  if args.length ≠ intro.required_input.length then
    .error (Err.needsArguments intro.name intro.required_input.length args.length)
  -- set any string options before any args so they can't be overridden
  else if !eng.setStringOk string_options then
    .error (Err.unableToCall intro.name)
  else
    -- the first image argument is the thing we expand constants to match
    let mi := matchImageId args
    match setRequiredLoop intro mi store ∅ (intro.required_input.zip args) [] with
    | .error e => .error e
    | .ok (store, refs, opArgs) =>
      match setKwargsLoop intro mi store refs kwargs opArgs with
      | .error e => .error e
      | .ok (store, refs, opArgs) =>
        match eng.buildResult with
        | none => .error (Err.unableToCall intro.name)
        | some bo =>
          .ok (finishCall bo intro store refs opArgs (kwargs.map Prod.fst))

/-- `Operation.call(operation_name, *args, **kwargs)` for a known operation
`intro`: pop the special `string_options` kwarg (defaulting to the empty
string), then run the pipeline. -/
def call (intro : Introspect) (eng : Engine) (store : Store)
    (args : List Value) (kwargs : List (String × Value)) :
    Except Err (Store × CallRet) :=
  let string_options := (kwargs.lookup "string_options").getD (Value.str "")
  let kwargs := kwargs.filter (fun p => p.1 != "string_options")
  callAfterPop intro eng store args string_options kwargs

/-! ### Concrete fixtures (an "add"-like operation, a modify-in-place
operation, stores and engines) used by witnesses and counterexamples -/

def exRaw : List (String × Nat) :=
  [("left", 19), ("right", 19), ("out", 35), ("extra", 34), ("opt", 18)]

def exTypeof : String → GType :=
  fun n => if n = "left" ∨ n = "right" then GType.image else GType.other 0

def exIntro : Introspect := mkIntrospect "add" exRaw exTypeof

def exStore : Store := [⟨[10], {0}⟩, ⟨[20], {1}⟩]

def exBuild : BuildOut :=
  { newUnits := [⟨[30], ∅⟩]
    outputs := fun n => if n = "out" then Value.image 2 else Value.num 7
    mutateData := id }

def exEng : Engine := { setStringOk := fun _ => true, buildResult := some exBuild }

def exEngBadOpts : Engine :=
  { setStringOk := fun _ => false, buildResult := some exBuild }

def exRawM : List (String × Nat) := [("image", 147)]

def exIntroM : Introspect := mkIntrospect "draw" exRawM (fun _ => GType.image)

def exStoreM : Store := [⟨[10, 11], {5}⟩]

def exBuildM : BuildOut :=
  { newUnits := []
    outputs := fun _ => Value.image 1
    mutateData := fun _ => [99, 98] }

def exEngM : Engine := { setStringOk := fun _ => true, buildResult := some exBuildM }

/-! ## Lemma layer -/

/-! ### Store access -/

theorem refsAt_append_lt (store ext : Store) (id : Nat) (h : id < store.length) :
    refsAt (store ++ ext) id = refsAt store id := by
  unfold refsAt
  rw [List.getD_append _ _ _ _ h]

theorem dataAt_append_lt (store ext : Store) (id : Nat) (h : id < store.length) :
    dataAt (store ++ ext) id = dataAt store id := by
  unfold dataAt
  rw [List.getD_append _ _ _ _ h]

theorem refsAt_ge (store : Store) (id : Nat) (h : store.length ≤ id) :
    refsAt store id = ∅ := by
  unfold refsAt
  rw [List.getD_eq_default _ _ h]
  rfl

theorem refsUnionL_append (store ext : Store) (ids : List Nat)
    (h : ∀ id ∈ ids, id < store.length) :
    refsUnionL (store ++ ext) ids = refsUnionL store ids := by
  induction ids with
  | nil => rfl
  | cons x rest ih =>
    simp only [refsUnionL]
    rw [refsAt_append_lt _ _ _ (h x (by simp)),
      ih (fun id hid => h id (by simp [hid]))]

theorem valueRefs_append (store ext : Store) (v : Value)
    (h : ∀ id ∈ unitIds v, id < store.length) :
    valueRefs (store ++ ext) v = valueRefs store v := by
  simp [valueRefs, refsUnionL_append _ _ _ h]

theorem accRefs_append (store ext : Store) (vs : List Value)
    (h : ∀ v ∈ vs, ∀ id ∈ unitIds v, id < store.length) :
    accRefs (store ++ ext) vs = accRefs store vs := by
  induction vs with
  | nil => rfl
  | cons v rest ih =>
    simp only [accRefs]
    rw [valueRefs_append _ _ _ (h v (by simp)),
      ih (fun w hw => h w (by simp [hw]))]

theorem refsUnionL_append_ids (store : Store) (ids1 ids2 : List Nat) :
    refsUnionL store (ids1 ++ ids2) = refsUnionL store ids1 ∪ refsUnionL store ids2 := by
  induction ids1 with
  | nil => simp [refsUnionL]
  | cons x rest ih => simp [refsUnionL, ih, Finset.union_assoc]

/-! ### The reference-collection pass (`add_reference`) -/

mutual

theorem findInsideSt_addRef (store : Store) (refs : Finset Nat) (v : Value) :
    findInsideSt (add_reference store) refs v = (refs ∪ valueRefs store v, none) := by
  cases v with
  | image id =>
    simp [findInsideSt, add_reference, valueRefs, unitIds, refsUnionL]
  | num n => simp [findInsideSt, add_reference, valueRefs, unitIds, refsUnionL]
  | str s => simp [findInsideSt, add_reference, valueRefs, unitIds, refsUnionL]
  | boolean b => simp [findInsideSt, add_reference, valueRefs, unitIds, refsUnionL]
  | arr elts =>
    rw [findInsideSt]
    simp only [add_reference]
    rw [findInsideStL_addRef store refs elts]
    simp [valueRefs, unitIds]

theorem findInsideStL_addRef (store : Store) (refs : Finset Nat) (vs : List Value) :
    findInsideStL (add_reference store) refs vs =
      (refs ∪ refsUnionL store (unitIdsL vs), none) := by
  cases vs with
  | nil => simp [findInsideStL, unitIdsL, refsUnionL]
  | cons x rest =>
    rw [findInsideStL, findInsideSt_addRef store refs x]
    show findInsideStL (add_reference store) (refs ∪ valueRefs store x) rest = _
    rw [findInsideStL_addRef store (refs ∪ valueRefs store x) rest]
    simp [unitIdsL, refsUnionL_append_ids, valueRefs, Finset.union_assoc]

end

theorem collectRefs_spec (store : Store) (refs : Finset Nat) (v : Value) :
    collectRefs store refs v = refs ∪ valueRefs store v := by
  simp [collectRefs, findInsideSt_addRef]

/-! ### The reference-attachment pass (`set_reference`) -/

theorem refsAt_set_self (store : Store) (id : Nat) (img : Image)
    (h : id < store.length) : refsAt (store.set id img) id = img.references := by
  simp [refsAt, List.getD_eq_getElem?_getD, List.getElem?_set_self',
    List.getElem?_eq_getElem h, Function.const]

theorem refsAt_set_ne (store : Store) (id k : Nat) (img : Image) (h : k ≠ id) :
    refsAt (store.set id img) k = refsAt store k := by
  simp [refsAt, List.getD_eq_getElem?_getD,
    List.getElem?_set_ne (fun hh => h hh.symm)]

theorem dataAt_set_self (store : Store) (id : Nat) (img : Image)
    (h : id < store.length) : dataAt (store.set id img) id = img.data := by
  simp [dataAt, List.getD_eq_getElem?_getD, List.getElem?_set_self',
    List.getElem?_eq_getElem h, Function.const]

theorem dataAt_set_ne (store : Store) (id k : Nat) (img : Image) (h : k ≠ id) :
    dataAt (store.set id img) k = dataAt store k := by
  simp [dataAt, List.getD_eq_getElem?_getD,
    List.getElem?_set_ne (fun hh => h hh.symm)]

theorem ite_refs_or (p q : Prop) [Decidable p] [Decidable q] (r : Finset Nat) :
    (if p then r else ∅) ∪ (if q then r else ∅) = if p ∨ q then r else ∅ := by
  by_cases hp : p <;> by_cases hq : q <;> simp [hp, hq]

mutual

theorem findInsideSt_setRef (refs : Finset Nat) (store : Store) (v : Value) :
    (findInsideSt (set_reference refs) store v).2 = none ∧
    (propagateRefs refs store v).length = store.length ∧
    (∀ k, dataAt (propagateRefs refs store v) k = dataAt store k) ∧
    (∀ k, refsAt (propagateRefs refs store v) k =
      refsAt store k ∪ (if k ∈ unitIds v ∧ k < store.length then refs else ∅)) := by
  cases v with
  | image id =>
    by_cases h : id < store.length
    · refine ⟨rfl, ?_, ?_, ?_⟩
      · simp [propagateRefs, findInsideSt, set_reference]
      · intro k
        by_cases hk : k = id
        · subst hk
          simp only [propagateRefs, findInsideSt, set_reference]
          rw [dataAt_set_self _ _ _ h]
        · simp only [propagateRefs, findInsideSt, set_reference]
          rw [dataAt_set_ne _ _ _ _ hk]
      · intro k
        by_cases hk : k = id
        · subst hk
          simp only [propagateRefs, findInsideSt, set_reference]
          rw [refsAt_set_self _ _ _ h]
          simp [unitIds, h]
        · simp only [propagateRefs, findInsideSt, set_reference]
          rw [refsAt_set_ne _ _ _ _ hk]
          simp [unitIds, hk]
    · have hset : store.set id ⟨dataAt store id, refsAt store id ∪ refs⟩ = store :=
        List.set_eq_of_length_le (by omega)
      refine ⟨rfl, ?_, ?_, ?_⟩
      · simp [propagateRefs, findInsideSt, set_reference, hset]
      · intro k
        simp [propagateRefs, findInsideSt, set_reference, hset]
      · intro k
        simp only [propagateRefs, findInsideSt, set_reference, hset]
        by_cases hk : k = id
        · subst hk
          simp [unitIds, h]
        · simp [unitIds, hk]
  | num n =>
    exact ⟨rfl, rfl, fun k => rfl,
      fun k => by simp [propagateRefs, findInsideSt, set_reference, unitIds]⟩
  | str s =>
    exact ⟨rfl, rfl, fun k => rfl,
      fun k => by simp [propagateRefs, findInsideSt, set_reference, unitIds]⟩
  | boolean b =>
    exact ⟨rfl, rfl, fun k => rfl,
      fun k => by simp [propagateRefs, findInsideSt, set_reference, unitIds]⟩
  | arr elts =>
    have hl := findInsideStL_setRef refs store elts
    have h2 : findInsideSt (set_reference refs) store (Value.arr elts) =
        findInsideStL (set_reference refs) store elts := by
      simp [findInsideSt, set_reference]
    have h1 : propagateRefs refs store (Value.arr elts) =
        propagateRefsL refs store elts := by
      simp [propagateRefs, propagateRefsL, h2]
    refine ⟨?_, ?_, ?_, ?_⟩
    · rw [h2]; exact hl.1
    · rw [h1]; exact hl.2.1
    · intro k; rw [h1]; exact hl.2.2.1 k
    · intro k
      rw [h1, hl.2.2.2 k]
      simp [unitIds]

theorem findInsideStL_setRef (refs : Finset Nat) (store : Store) (vs : List Value) :
    (findInsideStL (set_reference refs) store vs).2 = none ∧
    (propagateRefsL refs store vs).length = store.length ∧
    (∀ k, dataAt (propagateRefsL refs store vs) k = dataAt store k) ∧
    (∀ k, refsAt (propagateRefsL refs store vs) k =
      refsAt store k ∪ (if k ∈ unitIdsL vs ∧ k < store.length then refs else ∅)) := by
  cases vs with
  | nil =>
    exact ⟨rfl, rfl, fun k => rfl,
      fun k => by simp [propagateRefsL, findInsideStL, unitIdsL]⟩
  | cons x rest =>
    have hx := findInsideSt_setRef refs store x
    have hpair : findInsideSt (set_reference refs) store x =
        (propagateRefs refs store x, none) := by
      have : findInsideSt (set_reference refs) store x =
          ((findInsideSt (set_reference refs) store x).1,
            (findInsideSt (set_reference refs) store x).2) := rfl
      rw [this, hx.1]; rfl
    have hrest := findInsideStL_setRef refs (propagateRefs refs store x) rest
    have h2 : findInsideStL (set_reference refs) store (x :: rest) =
        findInsideStL (set_reference refs) (propagateRefs refs store x) rest := by
      rw [findInsideStL, hpair]
    have h1 : propagateRefsL refs store (x :: rest) =
        propagateRefsL refs (propagateRefs refs store x) rest := by
      simp [propagateRefsL, h2]
    refine ⟨?_, ?_, ?_, ?_⟩
    · rw [h2]; exact hrest.1
    · rw [h1, hrest.2.1]; exact hx.2.1
    · intro k
      rw [h1, hrest.2.2.1 k]; exact hx.2.2.1 k
    · intro k
      rw [h1, hrest.2.2.2 k, hx.2.2.2 k, hx.2.1, Finset.union_assoc,
        ite_refs_or]
      congr 1
      congr 1
      simp only [unitIdsL, List.mem_append]
      rw [or_and_right]

end

theorem propagateRefs_length (refs : Finset Nat) (store : Store) (v : Value) :
    (propagateRefs refs store v).length = store.length :=
  (findInsideSt_setRef refs store v).2.1

theorem propagateRefs_dataAt (refs : Finset Nat) (store : Store) (v : Value) (k : Nat) :
    dataAt (propagateRefs refs store v) k = dataAt store k :=
  (findInsideSt_setRef refs store v).2.2.1 k

theorem propagateRefs_refsAt (refs : Finset Nat) (store : Store) (v : Value) (k : Nat) :
    refsAt (propagateRefs refs store v) k =
      refsAt store k ∪ (if k ∈ unitIds v ∧ k < store.length then refs else ∅) :=
  (findInsideSt_setRef refs store v).2.2.2 k

/-! ### Marshaling (`Operation.set`) -/

theorem refsAt_append_self (store : Store) (img : Image) (rest : Store) :
    refsAt (store ++ img :: rest) store.length = img.references := by
  unfold refsAt
  rw [List.getD_eq_getElem?_getD, List.getElem?_append_right (le_refl _)]
  simp

theorem dataAt_append_self (store : Store) (img : Image) (rest : Store) :
    dataAt (store ++ img :: rest) store.length = img.data := by
  unfold dataAt
  rw [List.getD_eq_getElem?_getD, List.getElem?_append_right (le_refl _)]
  simp

theorem _imageize_extends (store : Store) (m : Nat) (v : Value) (st' : Store)
    (v' : Value) (h : _imageize store m v = some (st', v')) :
    ∃ ext, st' = store ++ ext := by
  cases v with
  | image id =>
    simp only [_imageize, Option.some.injEq, Prod.mk.injEq] at h
    exact ⟨[], by rw [← h.1]; simp⟩
  | num c =>
    simp only [_imageize, Option.some.injEq, Prod.mk.injEq] at h
    exact ⟨_, h.1.symm⟩
  | boolean b =>
    simp only [_imageize, Option.some.injEq, Prod.mk.injEq] at h
    exact ⟨_, h.1.symm⟩
  | str s => simp [_imageize] at h
  | arr elts =>
    simp only [_imageize] at h
    cases hm : elts.mapM (fun x => match x with | .num c => some c | _ => none) with
    | none => rw [hm] at h; simp at h
    | some cs =>
      rw [hm] at h
      simp only [Option.some.injEq, Prod.mk.injEq] at h
      exact ⟨_, h.1.symm⟩

theorem imageizeList_extends (m : Nat) (vs : List Value) :
    ∀ (store st' : Store) (ys : List Value),
      imageizeList store m vs = some (st', ys) → ∃ ext, st' = store ++ ext := by
  induction vs with
  | nil =>
    intro store st' ys h
    simp only [imageizeList, Option.some.injEq, Prod.mk.injEq] at h
    exact ⟨[], by rw [← h.1]; simp⟩
  | cons x rest ih =>
    intro store st' ys h
    simp only [imageizeList] at h
    cases h1 : _imageize store m x with
    | none => rw [h1] at h; simp at h
    | some sv =>
      obtain ⟨store1, y⟩ := sv
      rw [h1] at h
      dsimp only at h
      cases h2 : imageizeList store1 m rest with
      | none => rw [h2] at h; simp at h
      | some sv2 =>
        obtain ⟨store2, ys2⟩ := sv2
        rw [h2] at h
        dsimp only at h
        simp only [Option.some.injEq, Prod.mk.injEq] at h
        obtain ⟨e1, he1⟩ := _imageize_extends store m x store1 y h1
        obtain ⟨e2, he2⟩ := ih store1 store2 ys2 h2
        exact ⟨e1 ++ e2, by rw [← h.1, he2, he1, List.append_assoc]⟩

theorem promoteValue_extends (store : Store) (mi : Option Nat) (g : GType)
    (v : Value) (st' : Store) (v' : Value)
    (h : promoteValue store mi g v = .ok (st', v')) : ∃ ext, st' = store ++ ext := by
  cases mi with
  | none =>
    simp only [promoteValue, Except.ok.injEq, Prod.mk.injEq] at h
    exact ⟨[], by rw [← h.1]; simp⟩
  | some m =>
    cases g with
    | image =>
      simp only [promoteValue] at h
      cases h1 : _imageize store m v with
      | none => rw [h1] at h; simp at h
      | some sv =>
        obtain ⟨st1, v1⟩ := sv
        rw [h1] at h
        dsimp only at h
        simp only [Except.ok.injEq, Prod.mk.injEq] at h
        obtain ⟨e1, he1⟩ := _imageize_extends store m v st1 v1 h1
        exact ⟨e1, by rw [← h.1, he1]⟩
    | arrayImage =>
      cases v with
      | arr elts =>
        simp only [promoteValue] at h
        cases h1 : imageizeList store m elts with
        | none => rw [h1] at h; simp at h
        | some sv =>
          obtain ⟨st1, ys⟩ := sv
          rw [h1] at h
          dsimp only at h
          simp only [Except.ok.injEq, Prod.mk.injEq] at h
          obtain ⟨e1, he1⟩ := imageizeList_extends m elts store st1 ys h1
          exact ⟨e1, by rw [← h.1, he1]⟩
      | image id => simp [promoteValue] at h
      | num n => simp [promoteValue] at h
      | str s => simp [promoteValue] at h
      | boolean b => simp [promoteValue] at h
    | other tag =>
      simp only [promoteValue, Except.ok.injEq, Prod.mk.injEq] at h
      exact ⟨[], by rw [← h.1]; simp⟩

theorem promoteValue_error (store : Store) (mi : Option Nat) (g : GType)
    (v : Value) (e : Err) (h : promoteValue store mi g v = .error e) :
    e = Err.typeError := by
  cases mi with
  | none => simp [promoteValue] at h
  | some m =>
    cases g with
    | image =>
      simp only [promoteValue] at h
      cases h1 : _imageize store m v with
      | none => rw [h1] at h; dsimp only at h; simp only [Except.error.injEq] at h; exact h.symm
      | some sv => obtain ⟨a, b⟩ := sv; rw [h1] at h; dsimp only at h; simp at h
    | arrayImage =>
      cases v with
      | arr elts =>
        simp only [promoteValue] at h
        cases h1 : imageizeList store m elts with
        | none => rw [h1] at h; dsimp only at h; simp only [Except.error.injEq] at h; exact h.symm
        | some sv => obtain ⟨a, b⟩ := sv; rw [h1] at h; dsimp only at h; simp at h
      | image id =>
        simp only [promoteValue, Except.error.injEq] at h; exact h.symm
      | num n => simp only [promoteValue, Except.error.injEq] at h; exact h.symm
      | str s => simp only [promoteValue, Except.error.injEq] at h; exact h.symm
      | boolean b => simp only [promoteValue, Except.error.injEq] at h; exact h.symm
    | other tag => simp [promoteValue] at h

theorem opSet_extends (store : Store) (mi : Option Nat) (g : GType) (f : Nat)
    (v : Value) (st' : Store) (v' : Value)
    (h : opSet store mi g f v = .ok (st', v')) : ∃ ext, st' = store ++ ext := by
  unfold opSet at h
  cases hp : promoteValue store mi g v with
  | error e => rw [hp] at h; simp at h
  | ok sv =>
    obtain ⟨st1, v1⟩ := sv
    rw [hp] at h
    dsimp only at h
    obtain ⟨e1, he1⟩ := promoteValue_extends store mi g v st1 v1 hp
    by_cases hm : hasFlag f _MODIFY = true
    · rw [if_pos hm] at h
      cases v1 with
      | image id =>
        simp only [copyToMemory, Except.ok.injEq, Prod.mk.injEq] at h
        exact ⟨e1 ++ [⟨dataAt st1 id, refsAt st1 id⟩],
          by rw [← h.1, he1, List.append_assoc]⟩
      | num n => simp at h
      | str s => simp at h
      | boolean b => simp at h
      | arr elts => simp at h
    · rw [if_neg hm] at h
      simp only [Except.ok.injEq, Prod.mk.injEq] at h
      exact ⟨e1, by rw [← h.1, he1]⟩

theorem opSet_error (store : Store) (mi : Option Nat) (g : GType) (f : Nat)
    (v : Value) (e : Err) (h : opSet store mi g f v = .error e) :
    e = Err.typeError := by
  unfold opSet at h
  cases hp : promoteValue store mi g v with
  | error e1 =>
    rw [hp] at h
    simp only [Except.error.injEq] at h
    rw [← h]
    exact promoteValue_error store mi g v e1 hp
  | ok sv =>
    obtain ⟨st1, v1⟩ := sv
    rw [hp] at h
    dsimp only at h
    by_cases hm : hasFlag f _MODIFY = true
    · rw [if_pos hm] at h
      cases v1 with
      | image id => simp [copyToMemory] at h
      | num n => simp only [Except.error.injEq] at h; exact h.symm
      | str s => simp only [Except.error.injEq] at h; exact h.symm
      | boolean b => simp only [Except.error.injEq] at h; exact h.symm
      | arr elts => simp only [Except.error.injEq] at h; exact h.symm
    · rw [if_neg hm] at h; simp at h

theorem opSet_modify_fresh (store : Store) (mi : Option Nat) (g : GType) (f : Nat)
    (v : Value) (st' : Store) (v' : Value) (hm : hasFlag f _MODIFY = true)
    (h : opSet store mi g f v = .ok (st', v')) :
    ∃ j, v' = .image j ∧ store.length ≤ j ∧ j < st'.length := by
  unfold opSet at h
  cases hp : promoteValue store mi g v with
  | error e => rw [hp] at h; simp at h
  | ok sv =>
    obtain ⟨st1, v1⟩ := sv
    rw [hp] at h
    dsimp only at h
    rw [if_pos hm] at h
    obtain ⟨e1, he1⟩ := promoteValue_extends store mi g v st1 v1 hp
    cases v1 with
    | image id =>
      simp only [copyToMemory, Except.ok.injEq, Prod.mk.injEq] at h
      refine ⟨st1.length, h.2.symm, ?_, ?_⟩
      · rw [he1]; simp
      · rw [← h.1]; simp
    | num n => simp at h
    | str s => simp at h
    | boolean b => simp at h
    | arr elts => simp at h

theorem opSet_modify_image (store : Store) (mi : Option Nat) (g : GType) (f : Nat)
    (id : Nat) (st' : Store) (v' : Value) (hm : hasFlag f _MODIFY = true)
    (h : opSet store mi g f (.image id) = .ok (st', v')) :
    st' = store ++ [⟨dataAt store id, refsAt store id⟩] ∧
      v' = .image store.length := by
  have hp : promoteValue store mi g (.image id) = .ok (store, .image id) ∨
      ∃ e, promoteValue store mi g (.image id) = .error e := by
    cases mi with
    | none => exact Or.inl rfl
    | some m =>
      cases g with
      | image => exact Or.inl (by simp [promoteValue, _imageize])
      | arrayImage => exact Or.inr ⟨Err.typeError, by simp [promoteValue]⟩
      | other tag => exact Or.inl rfl
  unfold opSet at h
  rcases hp with hp | ⟨e, hp⟩
  · rw [hp] at h
    dsimp only at h
    rw [if_pos hm] at h
    simp only [copyToMemory, Except.ok.injEq, Prod.mk.injEq] at h
    exact ⟨h.1.symm, h.2.symm⟩
  · rw [hp] at h; dsimp only at h; simp at h

theorem opSet_passthrough (store : Store) (g : GType) (f : Nat) (v : Value)
    (hm : hasFlag f _MODIFY = false) :
    opSet store none g f v = .ok (store, v) := by
  simp [opSet, promoteValue, hm]

/-! ### The marshaling loops -/

/-- The freshness property tracked for modify-in-place entries of the
argument list: the value actually set is a ProcessingUnit allocated at or
beyond the given bound (so never one of the caller's units). -/
def ModifyFresh (base : Nat) (e : String × Nat × Value) : Prop :=
  hasFlag e.2.1 _MODIFY = true → ∃ j, e.2.2 = Value.image j ∧ base ≤ j

theorem setRequiredLoop_spec (intro : Introspect) (mi : Option Nat)
    (pairs : List (String × Value)) :
    ∀ (store : Store) (refs : Finset Nat) (acc : OpArgs) (st' : Store)
      (refs' : Finset Nat) (acc' : OpArgs),
      setRequiredLoop intro mi store refs pairs acc = .ok (st', refs', acc') →
      (∃ ext, st' = store ++ ext) ∧
      ((∀ p ∈ pairs, ∀ id ∈ unitIds p.2, id < store.length) →
        refs' = refs ∪ accRefs store (pairs.map Prod.snd)) ∧
      (∀ base : Nat, base ≤ store.length →
        (∀ e ∈ acc, ModifyFresh base e) → ∀ e ∈ acc', ModifyFresh base e) := by
  induction pairs with
  | nil =>
    intro store refs acc st' refs' acc' h
    simp only [setRequiredLoop, Except.ok.injEq, Prod.mk.injEq] at h
    refine ⟨⟨[], by rw [← h.1]; simp⟩, ?_, ?_⟩
    · intro _
      rw [← h.2.1]
      simp [accRefs]
    · intro base _ hacc e he
      rw [← h.2.2] at he
      exact hacc e he
  | cons p rest ih =>
    intro store refs acc st' refs' acc' h
    obtain ⟨name, value⟩ := p
    simp only [setRequiredLoop] at h
    cases hd : intro.details name with
    | none => rw [hd] at h; simp at h
    | some d =>
      rw [hd] at h
      dsimp only at h
      cases hs : opSet store mi d.gtype d.flags value with
      | error e => rw [hs] at h; simp at h
      | ok sv =>
        obtain ⟨st1, v1⟩ := sv
        rw [hs] at h
        dsimp only at h
        obtain ⟨e1, he1⟩ := opSet_extends store mi d.gtype d.flags value st1 v1 hs
        obtain ⟨hext, hrefs, hfresh⟩ :=
          ih st1 (collectRefs store refs value)
            (acc ++ [(name, d.flags, v1)]) st' refs' acc' h
        obtain ⟨e2, he2⟩ := hext
        have hlen1 : store.length ≤ st1.length := by rw [he1]; simp
        refine ⟨⟨e1 ++ e2, by rw [he2, he1, List.append_assoc]⟩, ?_, ?_⟩
        · intro hwf
          have hwfrest : ∀ p ∈ rest, ∀ id ∈ unitIds p.2, id < st1.length :=
            fun q hq id hid =>
              lt_of_lt_of_le (hwf q (by simp [hq]) id hid) hlen1
          rw [hrefs hwfrest, collectRefs_spec, he1,
            accRefs_append store e1 (rest.map Prod.snd)
              (by
                intro w hw id hid
                obtain ⟨q, hq, hqw⟩ := List.mem_map.mp hw
                exact hwf q (by simp [hq]) id (by rw [hqw]; exact hid))]
          simp [accRefs, Finset.union_assoc]
        · intro base hbase hacc
          refine hfresh base (le_trans hbase hlen1) ?_
          intro e he
          rcases List.mem_append.mp he with he | he
          · exact hacc e he
          · have : e = (name, d.flags, v1) := by simpa using he
            subst this
            intro hmod
            obtain ⟨j, hj1, hj2, _⟩ :=
              opSet_modify_fresh store mi d.gtype d.flags value st1 v1 hmod hs
            exact ⟨j, hj1, le_trans hbase hj2⟩

theorem setKwargsLoop_spec (intro : Introspect) (mi : Option Nat)
    (kwargs : List (String × Value)) :
    ∀ (store : Store) (refs : Finset Nat) (acc : OpArgs) (st' : Store)
      (refs' : Finset Nat) (acc' : OpArgs),
      setKwargsLoop intro mi store refs kwargs acc = .ok (st', refs', acc') →
      (∃ ext, st' = store ++ ext) ∧
      ((∀ p ∈ kwargs, ∀ id ∈ unitIds p.2, id < store.length) →
        refs' = refs ∪ accRefs store (kwargs.map Prod.snd)) ∧
      (∀ base : Nat, base ≤ store.length →
        (∀ e ∈ acc, ModifyFresh base e) → ∀ e ∈ acc', ModifyFresh base e) := by
  induction kwargs with
  | nil =>
    intro store refs acc st' refs' acc' h
    simp only [setKwargsLoop, Except.ok.injEq, Prod.mk.injEq] at h
    refine ⟨⟨[], by rw [← h.1]; simp⟩, ?_, ?_⟩
    · intro _
      rw [← h.2.1]
      simp [accRefs]
    · intro base _ hacc e he
      rw [← h.2.2] at he
      exact hacc e he
  | cons p rest ih =>
    intro store refs acc st' refs' acc' h
    obtain ⟨name, value⟩ := p
    simp only [setKwargsLoop] at h
    cases hd : intro.details name with
    | none => rw [hd] at h; simp at h
    | some d =>
      rw [hd] at h
      dsimp only at h
      by_cases hmem : name ∉ intro.optional_input ∧ name ∉ intro.optional_output
      · rw [if_pos hmem] at h; simp at h
      · rw [if_neg hmem] at h
        cases hs : opSet store mi d.gtype d.flags value with
        | error e => rw [hs] at h; simp at h
        | ok sv =>
          obtain ⟨st1, v1⟩ := sv
          rw [hs] at h
          dsimp only at h
          obtain ⟨e1, he1⟩ := opSet_extends store mi d.gtype d.flags value st1 v1 hs
          obtain ⟨hext, hrefs, hfresh⟩ :=
            ih st1 (collectRefs store refs value)
              (acc ++ [(name, d.flags, v1)]) st' refs' acc' h
          obtain ⟨e2, he2⟩ := hext
          have hlen1 : store.length ≤ st1.length := by rw [he1]; simp
          refine ⟨⟨e1 ++ e2, by rw [he2, he1, List.append_assoc]⟩, ?_, ?_⟩
          · intro hwf
            have hwfrest : ∀ p ∈ rest, ∀ id ∈ unitIds p.2, id < st1.length :=
              fun q hq id hid =>
                lt_of_lt_of_le (hwf q (by simp [hq]) id hid) hlen1
            rw [hrefs hwfrest, collectRefs_spec, he1,
              accRefs_append store e1 (rest.map Prod.snd)
                (by
                  intro w hw id hid
                  obtain ⟨q, hq, hqw⟩ := List.mem_map.mp hw
                  exact hwf q (by simp [hq]) id (by rw [hqw]; exact hid))]
            simp [accRefs, Finset.union_assoc]
          · intro base hbase hacc
            refine hfresh base (le_trans hbase hlen1) ?_
            intro e he
            rcases List.mem_append.mp he with he | he
            · exact hacc e he
            · have : e = (name, d.flags, v1) := by simpa using he
              subst this
              intro hmod
              obtain ⟨j, hj1, hj2, _⟩ :=
                opSet_modify_fresh store mi d.gtype d.flags value st1 v1 hmod hs
              exact ⟨j, hj1, le_trans hbase hj2⟩

theorem setRequiredLoop_error_shape (intro : Introspect) (mi : Option Nat)
    (pairs : List (String × Value)) :
    ∀ (store : Store) (refs : Finset Nat) (acc : OpArgs) (e : Err),
      setRequiredLoop intro mi store refs pairs acc = .error e →
      (∃ k, e = Err.keyError k) ∨ e = Err.typeError := by
  induction pairs with
  | nil => intro store refs acc e h; simp [setRequiredLoop] at h
  | cons p rest ih =>
    intro store refs acc e h
    obtain ⟨name, value⟩ := p
    simp only [setRequiredLoop] at h
    cases hd : intro.details name with
    | none =>
      rw [hd] at h
      simp only [Except.error.injEq] at h
      exact Or.inl ⟨name, h.symm⟩
    | some d =>
      rw [hd] at h
      dsimp only at h
      cases hs : opSet store mi d.gtype d.flags value with
      | error e1 =>
        rw [hs] at h
        simp only [Except.error.injEq] at h
        rw [← h]
        exact Or.inr (opSet_error store mi d.gtype d.flags value e1 hs)
      | ok sv =>
        obtain ⟨st1, v1⟩ := sv
        rw [hs] at h
        dsimp only at h
        exact ih st1 (collectRefs store refs value) (acc ++ [(name, d.flags, v1)]) e h

theorem setKwargsLoop_error_shape (intro : Introspect) (mi : Option Nat)
    (kwargs : List (String × Value)) :
    ∀ (store : Store) (refs : Finset Nat) (acc : OpArgs) (e : Err),
      setKwargsLoop intro mi store refs kwargs acc = .error e →
      (∃ k, e = Err.keyError k) ∨ e = Err.typeError ∨
        (∃ n, n ∈ kwargs.map Prod.fst ∧ e = Err.unsupportedOption intro.name n) := by
  induction kwargs with
  | nil => intro store refs acc e h; simp [setKwargsLoop] at h
  | cons p rest ih =>
    intro store refs acc e h
    obtain ⟨name, value⟩ := p
    simp only [setKwargsLoop] at h
    cases hd : intro.details name with
    | none =>
      rw [hd] at h
      simp only [Except.error.injEq] at h
      exact Or.inl ⟨name, h.symm⟩
    | some d =>
      rw [hd] at h
      dsimp only at h
      by_cases hmem : name ∉ intro.optional_input ∧ name ∉ intro.optional_output
      · rw [if_pos hmem] at h
        simp only [Except.error.injEq] at h
        exact Or.inr (Or.inr ⟨name, by simp, h.symm⟩)
      · rw [if_neg hmem] at h
        cases hs : opSet store mi d.gtype d.flags value with
        | error e1 =>
          rw [hs] at h
          simp only [Except.error.injEq] at h
          rw [← h]
          exact Or.inr (Or.inl (opSet_error store mi d.gtype d.flags value e1 hs))
        | ok sv =>
          obtain ⟨st1, v1⟩ := sv
          rw [hs] at h
          dsimp only at h
          rcases ih st1 (collectRefs store refs value)
              (acc ++ [(name, d.flags, v1)]) e h with h1 | h1 | ⟨n, hn1, hn2⟩
          · exact Or.inl h1
          · exact Or.inr (Or.inl h1)
          · exact Or.inr (Or.inr ⟨n, by simp [List.mem_map] at hn1 ⊢; tauto, hn2⟩)

/-! ### Build-time mutation -/

theorem mutateModifyArgs_length (mutFn : List Int → List Int) (a : OpArgs) :
    ∀ st : Store, (mutateModifyArgs mutFn st a).length = st.length := by
  induction a with
  | nil => intro st; rfl
  | cons e rest ih =>
    intro st
    obtain ⟨name, flags, v⟩ := e
    simp only [mutateModifyArgs]
    by_cases hm : hasFlag flags _MODIFY = true
    · rw [if_pos hm]
      cases v with
      | image id => dsimp only; rw [ih]; simp
      | num n => exact ih st
      | str s => exact ih st
      | boolean b => exact ih st
      | arr elts => exact ih st
    · rw [if_neg hm]; exact ih st

theorem mutateModifyArgs_refsAt (mutFn : List Int → List Int) (a : OpArgs) :
    ∀ (st : Store) (k : Nat),
      refsAt (mutateModifyArgs mutFn st a) k = refsAt st k := by
  induction a with
  | nil => intro st k; rfl
  | cons e rest ih =>
    intro st k
    obtain ⟨name, flags, v⟩ := e
    simp only [mutateModifyArgs]
    by_cases hm : hasFlag flags _MODIFY = true
    · rw [if_pos hm]
      cases v with
      | image id =>
        dsimp only
        rw [ih]
        by_cases hk : k = id
        · subst hk
          by_cases hlt : k < st.length
          · rw [refsAt_set_self _ _ _ hlt]
          · rw [List.set_eq_of_length_le (by omega)]
        · rw [refsAt_set_ne _ _ _ _ hk]
      | num n => exact ih st k
      | str s => exact ih st k
      | boolean b => exact ih st k
      | arr elts => exact ih st k
    · rw [if_neg hm]; exact ih st k

theorem mutateModifyArgs_dataAt_lt (mutFn : List Int → List Int) (a : OpArgs)
    (base : Nat) (hfresh : ∀ e ∈ a, ModifyFresh base e) :
    ∀ (st : Store) (k : Nat), k < base →
      dataAt (mutateModifyArgs mutFn st a) k = dataAt st k := by
  induction a with
  | nil => intro st k _; rfl
  | cons e rest ih =>
    intro st k hk
    obtain ⟨name, flags, v⟩ := e
    have hrest : ∀ e ∈ rest, ModifyFresh base e :=
      fun e he => hfresh e (by simp [he])
    simp only [mutateModifyArgs]
    by_cases hm : hasFlag flags _MODIFY = true
    · rw [if_pos hm]
      cases v with
      | image id =>
        dsimp only
        obtain ⟨j, hj1, hj2⟩ := hfresh (name, flags, .image id) (by simp) hm
        have hid : id = j := by simpa using hj1
        rw [ih hrest _ _ hk, dataAt_set_ne _ _ _ _ (by omega)]
      | num n => exact ih hrest st k hk
      | str s => exact ih hrest st k hk
      | boolean b => exact ih hrest st k hk
      | arr elts => exact ih hrest st k hk
    · rw [if_neg hm]; exact ih hrest st k hk

/-! ### Output reads -/

theorem readOutputs_spec (bo : BuildOut) (refs : Finset Nat) (names : List String) :
    ∀ store : Store,
      (readOutputs bo refs store names).2 = names.map bo.outputs ∧
      (readOutputs bo refs store names).1.length = store.length ∧
      (∀ k, dataAt (readOutputs bo refs store names).1 k = dataAt store k) ∧
      (∀ k, refsAt (readOutputs bo refs store names).1 k =
        refsAt store k ∪
          (if k ∈ names.flatMap (fun n => unitIds (bo.outputs n)) ∧
              k < store.length then refs else ∅)) := by
  induction names with
  | nil =>
    intro store
    exact ⟨rfl, rfl, fun k => rfl, fun k => by simp [readOutputs]⟩
  | cons name rest ih =>
    intro store
    have h1 := propagateRefs_length refs store (bo.outputs name)
    have hrec := ih (propagateRefs refs store (bo.outputs name))
    have hunf : readOutputs bo refs store (name :: rest) =
        ((readOutputs bo refs (propagateRefs refs store (bo.outputs name)) rest).1,
          bo.outputs name ::
            (readOutputs bo refs (propagateRefs refs store (bo.outputs name)) rest).2) := by
      rw [readOutputs]
    refine ⟨?_, ?_, ?_, ?_⟩
    · rw [hunf]
      simp [hrec.1]
    · rw [hunf]
      simpa [hrec.2.1] using h1
    · intro k
      rw [hunf]
      dsimp only
      rw [hrec.2.2.1 k, propagateRefs_dataAt]
    · intro k
      rw [hunf]
      dsimp only
      rw [hrec.2.2.2 k, propagateRefs_refsAt, h1, Finset.union_assoc, ite_refs_or]
      congr 1
      congr 1
      simp only [List.flatMap_cons, List.mem_append]
      rw [or_and_right]

theorem readOptOutputs_spec (bo : BuildOut) (refs : Finset Nat)
    (kwKeys : List String) (names : List String) :
    ∀ store : Store,
      (readOptOutputs bo refs kwKeys store names).2 =
        (names.filter (fun n => decide (n ∈ kwKeys))).map
          (fun n => (n, bo.outputs n)) ∧
      (readOptOutputs bo refs kwKeys store names).1.length = store.length ∧
      (∀ k, dataAt (readOptOutputs bo refs kwKeys store names).1 k = dataAt store k) ∧
      (∀ k, refsAt (readOptOutputs bo refs kwKeys store names).1 k =
        refsAt store k ∪
          (if k ∈ (names.filter (fun n => decide (n ∈ kwKeys))).flatMap
                (fun n => unitIds (bo.outputs n)) ∧
              k < store.length then refs else ∅)) := by
  induction names with
  | nil =>
    intro store
    exact ⟨rfl, rfl, fun k => rfl, fun k => by simp [readOptOutputs]⟩
  | cons name rest ih =>
    intro store
    by_cases hmem : name ∈ kwKeys
    · have h1 := propagateRefs_length refs store (bo.outputs name)
      have hrec := ih (propagateRefs refs store (bo.outputs name))
      have hunf : readOptOutputs bo refs kwKeys store (name :: rest) =
          ((readOptOutputs bo refs kwKeys
              (propagateRefs refs store (bo.outputs name)) rest).1,
            (name, bo.outputs name) ::
              (readOptOutputs bo refs kwKeys
                (propagateRefs refs store (bo.outputs name)) rest).2) := by
        rw [readOptOutputs, if_pos hmem]
      refine ⟨?_, ?_, ?_, ?_⟩
      · rw [hunf]
        simp [hrec.1, List.filter_cons, hmem]
      · rw [hunf]
        simpa [hrec.2.1] using h1
      · intro k
        rw [hunf]
        dsimp only
        rw [hrec.2.2.1 k, propagateRefs_dataAt]
      · intro k
        rw [hunf]
        dsimp only
        rw [hrec.2.2.2 k, propagateRefs_refsAt, h1, Finset.union_assoc, ite_refs_or]
        congr 1
        congr 1
        simp only [List.filter_cons]
        rw [if_pos (decide_eq_true hmem)]
        simp only [List.flatMap_cons, List.mem_append]
        rw [or_and_right]
    · have hunf : readOptOutputs bo refs kwKeys store (name :: rest) =
          readOptOutputs bo refs kwKeys store rest := by
        rw [readOptOutputs, if_neg hmem]
      have hrec := ih store
      rw [hunf]
      refine ⟨?_, hrec.2.1, hrec.2.2.1, ?_⟩
      · rw [hrec.1]
        simp [List.filter_cons, hmem]
      · intro k
        rw [hrec.2.2.2 k]
        congr 2
        simp [List.filter_cons, hmem]

/-! ### Pipeline decomposition -/

theorem finishCall_unfold (bo : BuildOut) (intro : Introspect) (store : Store)
    (refs : Finset Nat) (opArgs : OpArgs) (kwKeys : List String) :
    finishCall bo intro store refs opArgs kwKeys =
      ((readOptOutputs bo refs kwKeys
          (readOutputs bo refs
            (mutateModifyArgs bo.mutateData store opArgs ++ bo.newUnits)
            intro.required_output).1 intro.optional_output).1,
        collapseResult
          (if (readOptOutputs bo refs kwKeys
                (readOutputs bo refs
                  (mutateModifyArgs bo.mutateData store opArgs ++ bo.newUnits)
                  intro.required_output).1 intro.optional_output).2.length > 0 then
            ((readOutputs bo refs
                (mutateModifyArgs bo.mutateData store opArgs ++ bo.newUnits)
                intro.required_output).2.map ResItem.val) ++
              [ResItem.opts
                (readOptOutputs bo refs kwKeys
                  (readOutputs bo refs
                    (mutateModifyArgs bo.mutateData store opArgs ++ bo.newUnits)
                    intro.required_output).1 intro.optional_output).2]
          else
            (readOutputs bo refs
              (mutateModifyArgs bo.mutateData store opArgs ++ bo.newUnits)
              intro.required_output).2.map ResItem.val)) := rfl

theorem finishCall_spec (bo : BuildOut) (intro : Introspect) (store : Store)
    (refs : Finset Nat) (opArgs : OpArgs) (kwKeys : List String)
    (stB : Store) (outIds : List Nat)
    (hstB : stB = mutateModifyArgs bo.mutateData store opArgs ++ bo.newUnits)
    (houtIds : outIds =
      intro.required_output.flatMap (fun n => unitIds (bo.outputs n)) ++
        (intro.optional_output.filter (fun n => decide (n ∈ kwKeys))).flatMap
          (fun n => unitIds (bo.outputs n))) :
    (finishCall bo intro store refs opArgs kwKeys).1.length = stB.length ∧
    (∀ k, dataAt (finishCall bo intro store refs opArgs kwKeys).1 k = dataAt stB k) ∧
    (∀ k, refsAt (finishCall bo intro store refs opArgs kwKeys).1 k =
      refsAt stB k ∪ (if k ∈ outIds ∧ k < stB.length then refs else ∅)) ∧
    (finishCall bo intro store refs opArgs kwKeys).2 =
      collapseResult
        (if ((intro.optional_output.filter (fun n => decide (n ∈ kwKeys))).map
              (fun n => (n, bo.outputs n))).length > 0 then
          ((intro.required_output.map bo.outputs).map ResItem.val) ++
            [ResItem.opts
              ((intro.optional_output.filter (fun n => decide (n ∈ kwKeys))).map
                (fun n => (n, bo.outputs n)))]
        else
          (intro.required_output.map bo.outputs).map ResItem.val) := by
  have hro := readOutputs_spec bo refs intro.required_output stB
  have hoo := readOptOutputs_spec bo refs kwKeys intro.optional_output
    (readOutputs bo refs stB intro.required_output).1
  rw [finishCall_unfold, ← hstB]
  refine ⟨?_, ?_, ?_, ?_⟩
  · dsimp only
    rw [hoo.2.1, hro.2.1]
  · intro k
    dsimp only
    rw [hoo.2.2.1 k, hro.2.2.1 k]
  · intro k
    dsimp only
    rw [hoo.2.2.2 k, hro.2.2.2 k, hro.2.1, Finset.union_assoc, ite_refs_or,
      houtIds]
    congr 1
    congr 1
    simp only [List.mem_append]
    rw [or_and_right]
  · dsimp only
    rw [hoo.1, hro.1]

/-- A successful `callAfterPop` is the composition of its phases. -/
theorem callAfterPop_ok (intro : Introspect) (eng : Engine) (store : Store)
    (args : List Value) (so : Value) (kwargs : List (String × Value))
    (st1 st2 : Store) (refs1 acc : Finset Nat) (a1 a2 : OpArgs) (bo : BuildOut)
    (harity : args.length = intro.required_input.length)
    (hstr : eng.setStringOk so = true)
    (hreq : setRequiredLoop intro (matchImageId args) store ∅
      (intro.required_input.zip args) [] = .ok (st1, refs1, a1))
    (hkw : setKwargsLoop intro (matchImageId args) st1 refs1 kwargs a1 =
      .ok (st2, acc, a2))
    (hb : eng.buildResult = some bo) :
    callAfterPop intro eng store args so kwargs =
      .ok (finishCall bo intro st2 acc a2 (kwargs.map Prod.fst)) := by
  unfold callAfterPop
  rw [if_neg (by simp [harity]), if_neg (by simp [hstr])]
  dsimp only
  rw [hreq]
  dsimp only
  rw [hkw]
  dsimp only
  rw [hb]

/-- Every error `callAfterPop` can produce, by raise site. -/
theorem callAfterPop_error_shape (intro : Introspect) (eng : Engine)
    (store : Store) (args : List Value) (so : Value)
    (kwargs : List (String × Value)) (e : Err)
    (h : callAfterPop intro eng store args so kwargs = .error e) :
    e = Err.needsArguments intro.name intro.required_input.length args.length ∨
    e = Err.unableToCall intro.name ∨ (∃ k, e = Err.keyError k) ∨
    e = Err.typeError ∨
    (∃ n, n ∈ kwargs.map Prod.fst ∧ e = Err.unsupportedOption intro.name n) := by
  unfold callAfterPop at h
  by_cases h1 : args.length ≠ intro.required_input.length
  · rw [if_pos h1] at h
    simp only [Except.error.injEq] at h
    exact Or.inl h.symm
  · rw [if_neg h1] at h
    cases hss : eng.setStringOk so with
    | false =>
      rw [hss] at h
      rw [if_pos (by simp)] at h
      simp only [Except.error.injEq] at h
      exact Or.inr (Or.inl h.symm)
    | true =>
      rw [hss] at h
      rw [if_neg (by simp)] at h
      dsimp only at h
      cases hreq : setRequiredLoop intro (matchImageId args) store ∅
          (intro.required_input.zip args) [] with
      | error e1 =>
        rw [hreq] at h
        simp only [Except.error.injEq] at h
        rcases setRequiredLoop_error_shape intro (matchImageId args)
            (intro.required_input.zip args) store ∅ [] e1 hreq with ⟨k, hk⟩ | hk
        · exact Or.inr (Or.inr (Or.inl ⟨k, by rw [← h, hk]⟩))
        · exact Or.inr (Or.inr (Or.inr (Or.inl (by rw [← h, hk]))))
      | ok sv =>
        obtain ⟨st1, refs1, a1⟩ := sv
        rw [hreq] at h
        dsimp only at h
        cases hkw : setKwargsLoop intro (matchImageId args) st1 refs1 kwargs a1 with
        | error e1 =>
          rw [hkw] at h
          simp only [Except.error.injEq] at h
          rcases setKwargsLoop_error_shape intro (matchImageId args) kwargs
              st1 refs1 a1 e1 hkw with ⟨k, hk⟩ | hk | ⟨n, hn1, hn2⟩
          · exact Or.inr (Or.inr (Or.inl ⟨k, by rw [← h, hk]⟩))
          · exact Or.inr (Or.inr (Or.inr (Or.inl (by rw [← h, hk]))))
          · exact Or.inr (Or.inr (Or.inr (Or.inr ⟨n, hn1, by rw [← h, hn2]⟩)))
        | ok sv2 =>
          obtain ⟨st2, acc, a2⟩ := sv2
          rw [hkw] at h
          dsimp only at h
          cases hb : eng.buildResult with
          | none =>
            rw [hb] at h
            simp only [Except.error.injEq] at h
            exact Or.inr (Or.inl h.symm)
          | some bo =>
            rw [hb] at h
            simp at h

/-- `Operation.call` pops `string_options` and delegates. -/
theorem call_eq_afterPop (intro : Introspect) (eng : Engine) (store : Store)
    (args : List Value) (kwargs : List (String × Value)) :
    call intro eng store args kwargs =
      callAfterPop intro eng store args
        ((kwargs.lookup "string_options").getD (Value.str ""))
        (kwargs.filter (fun p => p.1 != "string_options")) := rfl

/-! ### `_find_inside` with a pure predicate is "first match of the preorder
flattening" -/

mutual

theorem findInsideSt_pure (pred : Value → Bool) (v : Value) :
    findInsideSt (fun (u : Unit) x => (u, pred x)) () v =
      ((), (flattenPre v).find? pred) := by
  cases v with
  | arr elts =>
    rw [findInsideSt]
    cases hp : pred (Value.arr elts) with
    | true =>
      simp only [flattenPre, List.find?_cons, hp]
    | false =>
      simp only [flattenPre, List.find?_cons, hp]
      exact findInsideStL_pure pred elts
  | image id =>
    rw [findInsideSt]
    cases hp : pred (Value.image id) with
    | true => simp [flattenPre, List.find?_cons, hp]
    | false => simp [flattenPre, List.find?_cons, hp]
  | num n =>
    rw [findInsideSt]
    cases hp : pred (Value.num n) with
    | true => simp [flattenPre, List.find?_cons, hp]
    | false => simp [flattenPre, List.find?_cons, hp]
  | str s =>
    rw [findInsideSt]
    cases hp : pred (Value.str s) with
    | true => simp [flattenPre, List.find?_cons, hp]
    | false => simp [flattenPre, List.find?_cons, hp]
  | boolean b =>
    rw [findInsideSt]
    cases hp : pred (Value.boolean b) with
    | true => simp [flattenPre, List.find?_cons, hp]
    | false => simp [flattenPre, List.find?_cons, hp]

theorem findInsideStL_pure (pred : Value → Bool) (vs : List Value) :
    findInsideStL (fun (u : Unit) x => (u, pred x)) () vs =
      ((), (flattenPreL vs).find? pred) := by
  cases vs with
  | nil => simp [findInsideStL, flattenPreL]
  | cons x rest =>
    rw [findInsideStL, findInsideSt_pure pred x]
    simp only [flattenPreL, List.find?_append]
    cases hf : (flattenPre x).find? pred with
    | some r => simp
    | none =>
      simp only [Option.none_or]
      exact findInsideStL_pure pred rest

end

theorem _find_inside_spec (pred : Value → Bool) (v : Value) :
    _find_inside pred v = (flattenPre v).find? pred := by
  simp [_find_inside, findInsideSt_pure]

/-! ### Classification closed forms (`Introspect.__init__`) -/

/-- Flag condition for a required input (spec rule 1). -/
def isReqInput (f : Nat) : Bool :=
  hasFlag f _INPUT && hasFlag f _REQUIRED && !hasFlag f _DEPRECATED

/-- Flag condition for a required output (spec rule 3). -/
def isReqOutput (f : Nat) : Bool :=
  hasFlag f _OUTPUT && hasFlag f _REQUIRED && !hasFlag f _DEPRECATED

/-- Flag condition for an optional input (spec rule 4). -/
def isOptInput (f : Nat) : Bool :=
  hasFlag f _INPUT && !hasFlag f _REQUIRED

/-- Flag condition for an optional output (spec rule 5). -/
def isOptOutput (f : Nat) : Bool :=
  hasFlag f _OUTPUT && !hasFlag f _REQUIRED

def reqInF (arguments : List (String × Nat)) : List String :=
  (arguments.filter (fun a => isReqInput a.2)).map Prod.fst

def optInF (arguments : List (String × Nat)) : List String :=
  (arguments.filter (fun a => isOptInput a.2)).map Prod.fst

def reqOutF (arguments : List (String × Nat)) : List String :=
  arguments.flatMap (fun a =>
    (if isReqInput a.2 && hasFlag a.2 _MODIFY then [a.1] else []) ++
      (if isReqOutput a.2 then [a.1] else []))

def optOutF (arguments : List (String × Nat)) : List String :=
  (arguments.filter (fun a => isOptOutput a.2)).map Prod.fst

theorem classifyStep_eq (acc : ClassLists) (a : String × Nat) :
    classifyStep acc a =
      ⟨acc.required_input ++ (if isReqInput a.2 then [a.1] else []),
        acc.optional_input ++ (if isOptInput a.2 then [a.1] else []),
        acc.required_output ++
          ((if isReqInput a.2 && hasFlag a.2 _MODIFY then [a.1] else []) ++
            (if isReqOutput a.2 then [a.1] else [])),
        acc.optional_output ++ (if isOptOutput a.2 then [a.1] else [])⟩ := by
  obtain ⟨name, flags⟩ := a
  simp only [classifyStep, isReqInput, isReqOutput, isOptInput, isOptOutput]
  by_cases h1 : (hasFlag flags _INPUT && hasFlag flags _REQUIRED &&
      !hasFlag flags _DEPRECATED) = true <;>
    by_cases hm : hasFlag flags _MODIFY = true <;>
    by_cases h2 : (hasFlag flags _OUTPUT && hasFlag flags _REQUIRED &&
      !hasFlag flags _DEPRECATED) = true <;>
    by_cases h3 : (hasFlag flags _INPUT && !hasFlag flags _REQUIRED) = true <;>
    by_cases h4 : (hasFlag flags _OUTPUT && !hasFlag flags _REQUIRED) = true <;>
    simp [h1, hm, h2, h3, h4]

theorem classify_go (arguments : List (String × Nat)) :
    ∀ acc : ClassLists,
      arguments.foldl classifyStep acc =
        ⟨acc.required_input ++ reqInF arguments,
          acc.optional_input ++ optInF arguments,
          acc.required_output ++ reqOutF arguments,
          acc.optional_output ++ optOutF arguments⟩ := by
  induction arguments with
  | nil =>
    intro acc
    simp [reqInF, optInF, reqOutF, optOutF]
  | cons a rest ih =>
    intro acc
    rw [List.foldl_cons, ih (classifyStep acc a), classifyStep_eq]
    simp only [reqInF, optInF, reqOutF, optOutF, List.filter_cons,
      List.flatMap_cons]
    refine ClassLists.mk.injEq .. ▸ ?_
    constructor
    · cases hc : isReqInput a.2 <;> simp [List.append_assoc]
    constructor
    · cases hc : isOptInput a.2 <;> simp [List.append_assoc]
    constructor
    · simp [List.append_assoc]
    · cases hc : isOptOutput a.2 <;> simp [List.append_assoc]

theorem classify_closed (arguments : List (String × Nat)) :
    classify arguments =
      ⟨reqInF arguments, optInF arguments, reqOutF arguments, optOutF arguments⟩ := by
  rw [classify, classify_go arguments ⟨[], [], [], []⟩]
  rfl

theorem mem_ite_singleton (c : Bool) (x n : String) :
    n ∈ (if c = true then [x] else []) ↔ c = true ∧ n = x := by
  cases c <;> simp

theorem mem_reqInF (arguments : List (String × Nat)) (n : String) :
    n ∈ reqInF arguments ↔ ∃ f, (n, f) ∈ arguments ∧ isReqInput f = true := by
  simp only [reqInF, List.mem_map, List.mem_filter, Prod.exists]
  constructor
  · rintro ⟨a, b, ⟨hmem, hf⟩, rfl⟩
    exact ⟨b, hmem, hf⟩
  · rintro ⟨f, hmem, hf⟩
    exact ⟨n, f, ⟨hmem, hf⟩, rfl⟩

theorem mem_optInF (arguments : List (String × Nat)) (n : String) :
    n ∈ optInF arguments ↔ ∃ f, (n, f) ∈ arguments ∧ isOptInput f = true := by
  simp only [optInF, List.mem_map, List.mem_filter, Prod.exists]
  constructor
  · rintro ⟨a, b, ⟨hmem, hf⟩, rfl⟩
    exact ⟨b, hmem, hf⟩
  · rintro ⟨f, hmem, hf⟩
    exact ⟨n, f, ⟨hmem, hf⟩, rfl⟩

theorem mem_optOutF (arguments : List (String × Nat)) (n : String) :
    n ∈ optOutF arguments ↔ ∃ f, (n, f) ∈ arguments ∧ isOptOutput f = true := by
  simp only [optOutF, List.mem_map, List.mem_filter, Prod.exists]
  constructor
  · rintro ⟨a, b, ⟨hmem, hf⟩, rfl⟩
    exact ⟨b, hmem, hf⟩
  · rintro ⟨f, hmem, hf⟩
    exact ⟨n, f, ⟨hmem, hf⟩, rfl⟩

theorem mem_reqOutF (arguments : List (String × Nat)) (n : String) :
    n ∈ reqOutF arguments ↔
      ∃ f, (n, f) ∈ arguments ∧
        ((isReqInput f && hasFlag f _MODIFY) = true ∨ isReqOutput f = true) := by
  simp only [reqOutF, List.mem_flatMap, List.mem_append, mem_ite_singleton,
    Prod.exists]
  constructor
  · rintro ⟨a, b, hmem, (⟨hc, rfl⟩ | ⟨hc, rfl⟩)⟩
    · exact ⟨b, hmem, Or.inl hc⟩
    · exact ⟨b, hmem, Or.inr hc⟩
  · rintro ⟨f, hmem, (hc | hc)⟩
    · exact ⟨n, f, hmem, Or.inl ⟨hc, rfl⟩⟩
    · exact ⟨n, f, hmem, Or.inr ⟨hc, rfl⟩⟩

theorem flags_eq_of_nodup (arguments : List (String × Nat))
    (h : (arguments.map Prod.fst).Nodup) {n : String} {f1 f2 : Nat}
    (h1 : (n, f1) ∈ arguments) (h2 : (n, f2) ∈ arguments) : f1 = f2 := by
  induction arguments with
  | nil => cases h1
  | cons a rest ih =>
    simp only [List.map_cons, List.nodup_cons] at h
    rcases List.mem_cons.mp h1 with h1 | h1 <;>
      rcases List.mem_cons.mp h2 with h2 | h2
    · rw [← h2] at h1
      exact congrArg Prod.snd h1
    · exfalso
      apply h.1
      rw [congrArg Prod.fst h1.symm]
      exact List.mem_map.mpr ⟨(n, f2), h2, rfl⟩
    · exfalso
      apply h.1
      rw [congrArg Prod.fst h2.symm]
      exact List.mem_map.mpr ⟨(n, f1), h1, rfl⟩
    · exact ih h.2 h1 h2

/-! ## Claim theorems -/

/-- C4: for a known operation whose `required_input` list has length N,
invoking with a positional-argument count different from N always fails
with the arity error reporting the expected and the given count — whatever
the store, engine state, option string or named arguments — and never with
a different error. -/
theorem arity_mismatch_first (intro : Introspect) (eng : Engine) (store : Store)
    (args : List Value) (kwargs : List (String × Value))
    (h : args.length ≠ intro.required_input.length) :
    call intro eng store args kwargs =
      .error (Err.needsArguments intro.name intro.required_input.length
        args.length) := by
  rw [call_eq_afterPop]
  unfold callAfterPop
  rw [if_pos h]

theorem arity_mismatch_first_witness :
    ([Value.image 0] : List Value).length ≠ exIntro.required_input.length ∧
      call exIntro exEng exStore [Value.image 0] [("opt", Value.num 1)] =
        .error (Err.needsArguments "add" 2 1) :=
  ⟨by decide,
    arity_mismatch_first exIntro exEng exStore [Value.image 0]
      [("opt", Value.num 1)] (by decide)⟩

/-- C5 counterexample: a call whose option string is malformed (the engine
rejects every option string) and whose positional count is also wrong
reports the arity error, not the option-string error, refuting the claimed
order (options before arity). -/
theorem options_order_counterexample :
    call exIntro exEngBadOpts exStore [] [("string_options", Value.str "bad")] =
      .error (Err.needsArguments "add" 2 0) ∧
    Err.needsArguments "add" 2 0 ≠ Err.unableToCall "add" := by
  exact ⟨rfl, by decide⟩

/-- C5 amended: the raw option string is applied AFTER the arity check of
step 3 but before any typed argument is set; a failure applying it is fatal
(the unable-to-call error), and when the option string is malformed and the
positional count is also wrong the failure reported is the arity error. -/
theorem options_after_arity_amended (intro : Introspect) (eng : Engine)
    (store : Store) (args : List Value) (kwargs : List (String × Value)) :
    (args.length = intro.required_input.length →
      eng.setStringOk ((kwargs.lookup "string_options").getD (Value.str "")) =
        false →
      call intro eng store args kwargs = .error (Err.unableToCall intro.name)) ∧
    (args.length ≠ intro.required_input.length →
      call intro eng store args kwargs =
        .error (Err.needsArguments intro.name intro.required_input.length
          args.length)) := by
  constructor
  · intro h1 h2
    rw [call_eq_afterPop]
    unfold callAfterPop
    rw [if_neg (by simp [h1]), if_pos (by simp [h2])]
  · intro h
    rw [call_eq_afterPop]
    unfold callAfterPop
    rw [if_pos h]

theorem options_after_arity_amended_witness :
    call exIntro exEngBadOpts exStore [Value.image 0, Value.image 1] [] =
      .error (Err.unableToCall "add") :=
  (options_after_arity_amended exIntro exEngBadOpts exStore
    [Value.image 0, Value.image 1] []).1 (by decide) (by decide)

/-- Keys of a lookup miss: no pair of the list carries the key. -/
theorem lookup_none_keys (key : String) (l : List (String × Value))
    (h : l.lookup key = none) : ∀ p ∈ l, p.1 ≠ key := by
  induction l with
  | nil => intro p hp; cases hp
  | cons a rest ih =>
    obtain ⟨ak, av⟩ := a
    rw [List.lookup_cons] at h
    cases hbeq : (key == ak) with
    | true => rw [hbeq] at h; simp at h
    | false =>
      rw [hbeq] at h
      dsimp only at h
      intro p hp
      rcases List.mem_cons.mp hp with hp | hp
      · rw [hp]
        simp only [beq_eq_false_iff_ne] at hbeq
        exact fun hk => hbeq hk.symm
      · exact ih h p hp

/-- C10: the named-argument key `string_options` is reserved: it is popped
from the kwargs before validation and its value (defaulting to the empty
string) becomes the raw option string, so the remaining pipeline runs on
the other kwargs only, and supplying it never triggers the
unsupported-named-argument failure even though it is in no operation's
optional sets. -/
theorem string_options_reserved (intro : Introspect) (eng : Engine)
    (store : Store) (args : List Value) (v : Value)
    (rest kwargs : List (String × Value))
    (hrest : ∀ p ∈ rest, p.1 ≠ "string_options") :
    call intro eng store args (("string_options", v) :: rest) =
      callAfterPop intro eng store args v rest ∧
    (kwargs.lookup "string_options" = none →
      call intro eng store args kwargs =
        callAfterPop intro eng store args (Value.str "") kwargs) ∧
    call intro eng store args kwargs ≠
      .error (Err.unsupportedOption intro.name "string_options") := by
  refine ⟨?_, ?_, ?_⟩
  · rw [call_eq_afterPop]
    have h1 : ((("string_options", v) :: rest).lookup "string_options") = some v := by
      simp [List.lookup_cons]
    have h2 : (("string_options", v) :: rest).filter
        (fun p => p.1 != "string_options") = rest := by
      rw [List.filter_cons, if_neg (by simp)]
      exact List.filter_eq_self.mpr (fun p hp => by simpa using hrest p hp)
    rw [h1, h2]
    rfl
  · intro hnone
    rw [call_eq_afterPop, hnone]
    have h2 : kwargs.filter (fun p => p.1 != "string_options") = kwargs :=
      List.filter_eq_self.mpr
        (fun p hp => by simpa using lookup_none_keys _ _ hnone p hp)
    rw [h2]
    rfl
  · intro hcontra
    rw [call_eq_afterPop] at hcontra
    rcases callAfterPop_error_shape intro eng store args _ _ _ hcontra with
      h | h | ⟨k, h⟩ | h | ⟨n, hn1, hn2⟩
    · cases h
    · cases h
    · cases h
    · cases h
    · injection hn2 with h1 h2
      rw [← h2] at hn1
      obtain ⟨p, hp1, hp2⟩ := List.mem_map.mp hn1
      have := List.mem_filter.mp hp1
      rw [hp2] at this
      simp at this

theorem collapseResult_two (x : ResItem) (l : List ResItem) (h : l ≠ []) :
    collapseResult (x :: l) = CallRet.many (x :: l) := by
  cases l with
  | nil => exact absurd rfl h
  | cons y t => rfl

/-- C6: return shape of a successful invocation: with at least one required
output and at least one requested optional output, the result is the
ordered required outputs followed by the name-keyed optional-output
mapping; with exactly one required output and no requested optional
outputs, that single value is returned unwrapped; with zero outputs of
either kind, nothing is returned. -/
theorem invoke_return_shape (intro : Introspect) (eng : Engine)
    (store st1 st2 : Store) (args : List Value)
    (kwargs kwargs' : List (String × Value)) (refs1 acc : Finset Nat)
    (a1 a2 : OpArgs) (bo : BuildOut)
    (hkw' : kwargs' = kwargs.filter (fun p => p.1 != "string_options"))
    (harity : args.length = intro.required_input.length)
    (hstr : eng.setStringOk ((kwargs.lookup "string_options").getD
      (Value.str "")) = true)
    (hreq : setRequiredLoop intro (matchImageId args) store ∅
      (intro.required_input.zip args) [] = .ok (st1, refs1, a1))
    (hkw : setKwargsLoop intro (matchImageId args) st1 refs1 kwargs' a1 =
      .ok (st2, acc, a2))
    (hb : eng.buildResult = some bo) :
    (intro.required_output ≠ [] →
      intro.optional_output.filter
        (fun n => decide (n ∈ kwargs'.map Prod.fst)) ≠ [] →
      call intro eng store args kwargs =
        .ok ((finishCall bo intro st2 acc a2 (kwargs'.map Prod.fst)).1,
          CallRet.many ((intro.required_output.map bo.outputs).map ResItem.val ++
            [ResItem.opts
              ((intro.optional_output.filter
                (fun n => decide (n ∈ kwargs'.map Prod.fst))).map
                  (fun n => (n, bo.outputs n)))]))) ∧
    (∀ n0, intro.required_output = [n0] →
      intro.optional_output.filter
        (fun n => decide (n ∈ kwargs'.map Prod.fst)) = [] →
      call intro eng store args kwargs =
        .ok ((finishCall bo intro st2 acc a2 (kwargs'.map Prod.fst)).1,
          CallRet.single (ResItem.val (bo.outputs n0)))) ∧
    (intro.required_output = [] →
      intro.optional_output.filter
        (fun n => decide (n ∈ kwargs'.map Prod.fst)) = [] →
      call intro eng store args kwargs =
        .ok ((finishCall bo intro st2 acc a2 (kwargs'.map Prod.fst)).1,
          CallRet.nothing)) := by
  have hcall : call intro eng store args kwargs =
      .ok (finishCall bo intro st2 acc a2 (kwargs'.map Prod.fst)) := by
    rw [call_eq_afterPop, ← hkw']
    exact callAfterPop_ok intro eng store args _ kwargs' st1 st2 refs1 acc a1 a2
      bo harity hstr hreq hkw hb
  have hfs := finishCall_spec bo intro st2 acc a2 (kwargs'.map Prod.fst)
    (mutateModifyArgs bo.mutateData st2 a2 ++ bo.newUnits)
    (intro.required_output.flatMap (fun n => unitIds (bo.outputs n)) ++
      (intro.optional_output.filter
        (fun n => decide (n ∈ kwargs'.map Prod.fst))).flatMap
        (fun n => unitIds (bo.outputs n))) rfl rfl
  have hsnd := hfs.2.2.2
  refine ⟨?_, ?_, ?_⟩
  · intro hreqne hoptne
    rw [hcall]
    congr 1
    have hpos : ((intro.optional_output.filter
        (fun n => decide (n ∈ kwargs'.map Prod.fst))).map
          (fun n => (n, bo.outputs n))).length > 0 := by
      simp only [List.length_map]
      exact List.length_pos.mpr hoptne
    rw [Prod.ext_iff]
    refine ⟨rfl, ?_⟩
    rw [hsnd, if_pos hpos]
    obtain ⟨n0, ns, hcons⟩ := List.exists_cons_of_ne_nil hreqne
    rw [hcons]
    simp only [List.map_cons, List.cons_append]
    exact collapseResult_two _ _ (by simp)
  · intro n0 hone hoptnil
    rw [hcall]
    congr 1
    rw [Prod.ext_iff]
    refine ⟨rfl, ?_⟩
    rw [hsnd, hone, hoptnil]
    simp [collapseResult]
  · intro hreqnil hoptnil
    rw [hcall]
    congr 1
    rw [Prod.ext_iff]
    refine ⟨rfl, ?_⟩
    rw [hsnd, hreqnil, hoptnil]
    simp [collapseResult]

theorem invoke_return_shape_witness :
    call exIntro exEng exStore [Value.image 0, Value.image 1] [] =
      .ok ([⟨[10], {0}⟩, ⟨[20], {1}⟩, ⟨[30], ({0, 1} : Finset Nat)⟩],
        CallRet.single (ResItem.val (Value.image 2))) := by
  have h := (invoke_return_shape exIntro exEng exStore
    exStore exStore [Value.image 0, Value.image 1] [] [] ({0, 1} : Finset Nat)
    ({0, 1} : Finset Nat)
    [("left", 19, Value.image 0), ("right", 19, Value.image 1)]
    [("left", 19, Value.image 0), ("right", 19, Value.image 1)]
    exBuild (by decide) (by decide) (by decide) (by decide) (by decide)
    rfl).2.1 "out" (by decide) (by decide)
  rw [h]
  decide

/-- C9: an optional output is produced and included in the name-keyed
result mapping iff its name was supplied as a key of the named arguments —
regardless of the value supplied for that key (a false-like value still
enables it) — and the full call-scoped reference accumulator is attached to
every ProcessingUnit found in a produced optional output. -/
theorem optional_outputs_opt_in (intro : Introspect) (eng : Engine)
    (store st1 st2 stB : Store) (args : List Value)
    (kwargs kwargs' : List (String × Value)) (refs1 acc : Finset Nat)
    (a1 a2 : OpArgs) (bo : BuildOut)
    (hkw' : kwargs' = kwargs.filter (fun p => p.1 != "string_options"))
    (harity : args.length = intro.required_input.length)
    (hstr : eng.setStringOk ((kwargs.lookup "string_options").getD
      (Value.str "")) = true)
    (hreq : setRequiredLoop intro (matchImageId args) store ∅
      (intro.required_input.zip args) [] = .ok (st1, refs1, a1))
    (hkw : setKwargsLoop intro (matchImageId args) st1 refs1 kwargs' a1 =
      .ok (st2, acc, a2))
    (hb : eng.buildResult = some bo)
    (hstB : stB = mutateModifyArgs bo.mutateData st2 a2 ++ bo.newUnits) :
    call intro eng store args kwargs =
      .ok (finishCall bo intro st2 acc a2 (kwargs'.map Prod.fst)) ∧
    (finishCall bo intro st2 acc a2 (kwargs'.map Prod.fst)).2 =
      collapseResult
        (if ((intro.optional_output.filter
            (fun n => decide (n ∈ kwargs'.map Prod.fst))).map
              (fun n => (n, bo.outputs n))).length > 0 then
          ((intro.required_output.map bo.outputs).map ResItem.val) ++
            [ResItem.opts
              ((intro.optional_output.filter
                (fun n => decide (n ∈ kwargs'.map Prod.fst))).map
                  (fun n => (n, bo.outputs n)))]
        else (intro.required_output.map bo.outputs).map ResItem.val) ∧
    (∀ n, n ∈ ((intro.optional_output.filter
        (fun n => decide (n ∈ kwargs'.map Prod.fst))).map
          (fun n => (n, bo.outputs n))).map Prod.fst ↔
      n ∈ intro.optional_output ∧ n ∈ kwargs'.map Prod.fst) ∧
    (∀ n ∈ intro.optional_output, n ∈ kwargs'.map Prod.fst →
      ∀ id ∈ unitIds (bo.outputs n), id < stB.length →
        acc ⊆ refsAt (finishCall bo intro st2 acc a2 (kwargs'.map Prod.fst)).1 id) := by
  have hcall : call intro eng store args kwargs =
      .ok (finishCall bo intro st2 acc a2 (kwargs'.map Prod.fst)) := by
    rw [call_eq_afterPop, ← hkw']
    exact callAfterPop_ok intro eng store args _ kwargs' st1 st2 refs1 acc a1 a2
      bo harity hstr hreq hkw hb
  have hfs := finishCall_spec bo intro st2 acc a2 (kwargs'.map Prod.fst)
    stB
    (intro.required_output.flatMap (fun n => unitIds (bo.outputs n)) ++
      (intro.optional_output.filter
        (fun n => decide (n ∈ kwargs'.map Prod.fst))).flatMap
        (fun n => unitIds (bo.outputs n))) hstB rfl
  refine ⟨hcall, hfs.2.2.2, ?_, ?_⟩
  · intro n
    rw [List.map_map]
    have : (Prod.fst ∘ fun n => (n, bo.outputs n)) = fun n => n := rfl
    rw [this, List.map_id']
    simp [List.mem_filter]
  · intro n hn1 hn2 id hid hlt
    rw [hfs.2.2.1 id, if_pos]
    · exact Finset.subset_union_right
    · refine ⟨List.mem_append.mpr (Or.inr ?_), hlt⟩
      exact List.mem_flatMap.mpr
        ⟨n, List.mem_filter.mpr ⟨hn1, by simpa using hn2⟩, hid⟩

theorem optional_outputs_opt_in_witness :
    call exIntro exEng exStore [Value.image 0, Value.image 1]
        [("extra", Value.boolean false)] =
      .ok ([⟨[10], {0}⟩, ⟨[20], {1}⟩, ⟨[30], ({0, 1} : Finset Nat)⟩],
        CallRet.many [ResItem.val (Value.image 2),
          ResItem.opts [("extra", Value.num 7)]]) ∧
    ("extra" ∈ ([("extra", Value.num 7)].map Prod.fst) ↔
      "extra" ∈ exIntro.optional_output ∧
        "extra" ∈ ([("extra", Value.boolean false)].map Prod.fst)) := by
  have h := optional_outputs_opt_in exIntro exEng exStore exStore exStore
    (exStore ++ [⟨[30], ∅⟩]) [Value.image 0, Value.image 1]
    [("extra", Value.boolean false)] [("extra", Value.boolean false)]
    ({0, 1} : Finset Nat) ({0, 1} : Finset Nat)
    [("left", 19, Value.image 0), ("right", 19, Value.image 1)]
    [("left", 19, Value.image 0), ("right", 19, Value.image 1),
      ("extra", 34, Value.boolean false)]
    exBuild (by decide) (by decide) (by decide) (by decide) (by decide)
    rfl (by decide)
  constructor
  · rw [h.1]
    decide
  · constructor
    · intro _
      exact ⟨by decide, by decide⟩
    · intro _
      decide

/-- C3: for every required input flagged modify-in-place, the
ProcessingUnit the caller passed is bit-for-bit unchanged after a
successful invocation (every caller-held unit's pixel data is untouched);
the value actually set on the operation for a modify-in-place argument is
always a freshly allocated unit, produced by deep-copying the incoming
ProcessingUnit to a fresh backing buffer before it is set. -/
theorem modify_defensive_copy (intro : Introspect) (eng : Engine)
    (store st1 st2 : Store) (args : List Value)
    (kwargs kwargs' : List (String × Value)) (refs1 acc : Finset Nat)
    (a1 a2 : OpArgs) (bo : BuildOut)
    (hkw' : kwargs' = kwargs.filter (fun p => p.1 != "string_options"))
    (harity : args.length = intro.required_input.length)
    (hstr : eng.setStringOk ((kwargs.lookup "string_options").getD
      (Value.str "")) = true)
    (hreq : setRequiredLoop intro (matchImageId args) store ∅
      (intro.required_input.zip args) [] = .ok (st1, refs1, a1))
    (hkw : setKwargsLoop intro (matchImageId args) st1 refs1 kwargs' a1 =
      .ok (st2, acc, a2))
    (hb : eng.buildResult = some bo) :
    call intro eng store args kwargs =
      .ok (finishCall bo intro st2 acc a2 (kwargs'.map Prod.fst)) ∧
    (∀ id, id < store.length →
      dataAt (finishCall bo intro st2 acc a2 (kwargs'.map Prod.fst)).1 id =
        dataAt store id) ∧
    (∀ e ∈ a2, ModifyFresh store.length e) ∧
    (∀ (st : Store) (mi : Option Nat) (g : GType) (f : Nat) (id : Nat)
        (st' : Store) (v' : Value), hasFlag f _MODIFY = true →
      opSet st mi g f (Value.image id) = .ok (st', v') →
      st' = st ++ [⟨dataAt st id, refsAt st id⟩] ∧ v' = Value.image st.length) := by
  have hcall : call intro eng store args kwargs =
      .ok (finishCall bo intro st2 acc a2 (kwargs'.map Prod.fst)) := by
    rw [call_eq_afterPop, ← hkw']
    exact callAfterPop_ok intro eng store args _ kwargs' st1 st2 refs1 acc a1 a2
      bo harity hstr hreq hkw hb
  obtain ⟨⟨e1, he1⟩, _, hfresh1⟩ :=
    setRequiredLoop_spec intro (matchImageId args)
      (intro.required_input.zip args) store ∅ [] st1 refs1 a1 hreq
  obtain ⟨⟨e2, he2⟩, _, hfresh2⟩ :=
    setKwargsLoop_spec intro (matchImageId args) kwargs' st1 refs1 a1 st2 acc
      a2 hkw
  have hlen1 : store.length ≤ st1.length := by rw [he1]; simp
  have hlen2 : st1.length ≤ st2.length := by rw [he2]; simp
  have ha2fresh : ∀ e ∈ a2, ModifyFresh store.length e :=
    hfresh2 store.length hlen1
      (hfresh1 store.length (le_refl _) (fun e he => absurd he (List.not_mem_nil e)))
  have hfs := finishCall_spec bo intro st2 acc a2 (kwargs'.map Prod.fst)
    (mutateModifyArgs bo.mutateData st2 a2 ++ bo.newUnits)
    (intro.required_output.flatMap (fun n => unitIds (bo.outputs n)) ++
      (intro.optional_output.filter
        (fun n => decide (n ∈ kwargs'.map Prod.fst))).flatMap
        (fun n => unitIds (bo.outputs n))) rfl rfl
  refine ⟨hcall, ?_, ha2fresh, ?_⟩
  · intro id hid
    rw [hfs.2.1 id,
      dataAt_append_lt _ _ _
        (by rw [mutateModifyArgs_length]; omega),
      mutateModifyArgs_dataAt_lt bo.mutateData a2 store.length ha2fresh st2 id hid,
      he2, he1, List.append_assoc, dataAt_append_lt _ _ _ hid]
  · intro st mi g f id st' v' hm h
    exact opSet_modify_image st mi g f id st' v' hm h

theorem modify_defensive_copy_witness :
    call exIntroM exEngM exStoreM [Value.image 0] [] =
      .ok ([⟨[10, 11], ({5} : Finset Nat)⟩, ⟨[99, 98], ({5} : Finset Nat)⟩],
        CallRet.single (ResItem.val (Value.image 1))) ∧
    dataAt [⟨[10, 11], ({5} : Finset Nat)⟩, ⟨[99, 98], ({5} : Finset Nat)⟩] 0 =
      dataAt exStoreM 0 := by
  have h := modify_defensive_copy exIntroM exEngM exStoreM
    [⟨[10, 11], ({5} : Finset Nat)⟩, ⟨[10, 11], ({5} : Finset Nat)⟩]
    [⟨[10, 11], ({5} : Finset Nat)⟩, ⟨[10, 11], ({5} : Finset Nat)⟩]
    [Value.image 0] [] [] ({5} : Finset Nat) ({5} : Finset Nat)
    [("image", 147, Value.image 1)] [("image", 147, Value.image 1)]
    exBuildM (by decide) (by decide) (by decide) (by decide) (by decide) rfl
  constructor
  · rw [h.1]
    decide
  · exact h.2.1 0 (by decide)

/-- C1: after a successful invocation, every ProcessingUnit found among the
call's outputs has references equal to the union of its prior references
(for a unit that existed at call time, its call-time references; the build
step never changes any references) with the call-scoped accumulator, which
equals the union of the reference sets of every ProcessingUnit reachable
among the positional and named inputs at call time; units not found among
the outputs keep their references (attachment unions, never replaces). -/
theorem invoke_reference_propagation (intro : Introspect) (eng : Engine)
    (store st1 st2 stB : Store) (args : List Value)
    (kwargs kwargs' : List (String × Value)) (refs1 acc : Finset Nat)
    (a1 a2 : OpArgs) (bo : BuildOut) (outIds : List Nat)
    (hkw' : kwargs' = kwargs.filter (fun p => p.1 != "string_options"))
    (harity : args.length = intro.required_input.length)
    (hstr : eng.setStringOk ((kwargs.lookup "string_options").getD
      (Value.str "")) = true)
    (hreq : setRequiredLoop intro (matchImageId args) store ∅
      (intro.required_input.zip args) [] = .ok (st1, refs1, a1))
    (hkw : setKwargsLoop intro (matchImageId args) st1 refs1 kwargs' a1 =
      .ok (st2, acc, a2))
    (hb : eng.buildResult = some bo)
    (hstB : stB = mutateModifyArgs bo.mutateData st2 a2 ++ bo.newUnits)
    (houtIds : outIds =
      intro.required_output.flatMap (fun n => unitIds (bo.outputs n)) ++
        (intro.optional_output.filter
          (fun n => decide (n ∈ kwargs'.map Prod.fst))).flatMap
          (fun n => unitIds (bo.outputs n)))
    (hwfa : ∀ v ∈ args, ∀ id ∈ unitIds v, id < store.length)
    (hwfk : ∀ p ∈ kwargs', ∀ id ∈ unitIds p.2, id < store.length) :
    call intro eng store args kwargs =
      .ok (finishCall bo intro st2 acc a2 (kwargs'.map Prod.fst)) ∧
    acc = accRefs store args ∪ accRefs store (kwargs'.map Prod.snd) ∧
    (∀ id, refsAt (finishCall bo intro st2 acc a2 (kwargs'.map Prod.fst)).1 id =
      refsAt stB id ∪ (if id ∈ outIds ∧ id < stB.length then acc else ∅)) ∧
    (∀ id, id < store.length → refsAt stB id = refsAt store id) := by
  have hcall : call intro eng store args kwargs =
      .ok (finishCall bo intro st2 acc a2 (kwargs'.map Prod.fst)) := by
    rw [call_eq_afterPop, ← hkw']
    exact callAfterPop_ok intro eng store args _ kwargs' st1 st2 refs1 acc a1 a2
      bo harity hstr hreq hkw hb
  obtain ⟨⟨e1, he1⟩, hrefs1, _⟩ :=
    setRequiredLoop_spec intro (matchImageId args)
      (intro.required_input.zip args) store ∅ [] st1 refs1 a1 hreq
  obtain ⟨⟨e2, he2⟩, hrefs2, _⟩ :=
    setKwargsLoop_spec intro (matchImageId args) kwargs' st1 refs1 a1 st2 acc
      a2 hkw
  have hlen1 : store.length ≤ st1.length := by rw [he1]; simp
  have hzip : (intro.required_input.zip args).map Prod.snd = args :=
    List.map_snd_zip _ _ harity.le
  have hwfzip : ∀ p ∈ intro.required_input.zip args,
      ∀ id ∈ unitIds p.2, id < store.length := by
    intro p hp id hid
    exact hwfa p.2 (List.of_mem_zip hp).2 id hid
  have hacc : acc = accRefs store args ∪ accRefs store (kwargs'.map Prod.snd) := by
    have h1 : refs1 = accRefs store args := by
      rw [hrefs1 hwfzip, hzip, Finset.empty_union]
    have hwfk1 : ∀ p ∈ kwargs', ∀ id ∈ unitIds p.2, id < st1.length :=
      fun p hp id hid => lt_of_lt_of_le (hwfk p hp id hid) hlen1
    have h2 : accRefs st1 (kwargs'.map Prod.snd) =
        accRefs store (kwargs'.map Prod.snd) := by
      rw [he1]
      exact accRefs_append store e1 _
        (by
          intro w hw id hid
          obtain ⟨q, hq, hqw⟩ := List.mem_map.mp hw
          exact hwfk q hq id (by rw [hqw]; exact hid))
    rw [hrefs2 hwfk1, h2, h1]
  have hfs := finishCall_spec bo intro st2 acc a2 (kwargs'.map Prod.fst)
    stB outIds hstB houtIds
  refine ⟨hcall, hacc, hfs.2.2.1, ?_⟩
  · intro id hid
    rw [hstB,
      refsAt_append_lt _ _ _
        (by rw [mutateModifyArgs_length]; rw [he2, he1]; simp; omega),
      mutateModifyArgs_refsAt, he2, he1, List.append_assoc,
      refsAt_append_lt _ _ _ hid]

theorem invoke_reference_propagation_witness :
    call exIntro exEng exStore [Value.image 0, Value.image 1] [] =
      .ok ([⟨[10], {0}⟩, ⟨[20], {1}⟩, ⟨[30], ({0, 1} : Finset Nat)⟩],
        CallRet.single (ResItem.val (Value.image 2))) ∧
    ({0, 1} : Finset Nat) = accRefs exStore [Value.image 0, Value.image 1] ∪
      accRefs exStore [] ∧
    refsAt [⟨[10], {0}⟩, ⟨[20], {1}⟩, ⟨[30], ({0, 1} : Finset Nat)⟩] 2 =
      refsAt (exStore ++ [⟨[30], ∅⟩]) 2 ∪ ({0, 1} : Finset Nat) := by
  have h := invoke_reference_propagation exIntro exEng exStore exStore exStore
    (exStore ++ [⟨[30], ∅⟩]) [Value.image 0, Value.image 1] [] []
    ({0, 1} : Finset Nat) ({0, 1} : Finset Nat)
    [("left", 19, Value.image 0), ("right", 19, Value.image 1)]
    [("left", 19, Value.image 0), ("right", 19, Value.image 1)]
    exBuild [2] (by decide) (by decide) (by decide) (by decide) (by decide)
    rfl (by decide) (by decide) (by decide) (by decide)
  refine ⟨?_, h.2.1, ?_⟩
  · rw [h.1]
    decide
  · exact h.2.2.1 2

theorem imageizeList_elementwise (m : Nat) (elts : List Value) :
    ∀ (store st' : Store) (ys : List Value), m < store.length →
      imageizeList store m elts = some (st', ys) →
      ys.length = elts.length ∧
      (∀ i (hi : i < elts.length) (hy : i < ys.length),
        (isImageValue (elts.get ⟨i, hi⟩) = true →
          ys.get ⟨i, hy⟩ = elts.get ⟨i, hi⟩) ∧
        (∀ c, elts.get ⟨i, hi⟩ = Value.num c →
          ∃ j, ys.get ⟨i, hy⟩ = Value.image j ∧ store.length ≤ j ∧
            j < st'.length ∧ refsAt st' j = ∅ ∧
            dataAt st' j = (dataAt store m).map (fun _ => c))) := by
  induction elts with
  | nil =>
    intro store st' ys hm h
    simp only [imageizeList, Option.some.injEq, Prod.mk.injEq] at h
    exact ⟨by rw [← h.2], fun i hi => absurd hi (by simp)⟩
  | cons x rest ih =>
    intro store st' ys hm h
    simp only [imageizeList] at h
    cases h1 : _imageize store m x with
    | none => rw [h1] at h; simp at h
    | some sv =>
      obtain ⟨store1, y⟩ := sv
      rw [h1] at h
      dsimp only at h
      cases h2 : imageizeList store1 m rest with
      | none => rw [h2] at h; simp at h
      | some sv2 =>
        obtain ⟨store2, ys2⟩ := sv2
        rw [h2] at h
        dsimp only at h
        simp only [Option.some.injEq, Prod.mk.injEq] at h
        obtain ⟨hst, hys⟩ := h
        obtain ⟨e1, he1⟩ := _imageize_extends store m x store1 y h1
        have hlen1 : store.length ≤ store1.length := by rw [he1]; simp
        have hm1 : m < store1.length := lt_of_lt_of_le hm hlen1
        obtain ⟨hlen, helem⟩ := ih store1 st' ys2 hm1 (by rw [← hst]; exact h2)
        obtain ⟨e2, he2⟩ := imageizeList_extends m rest store1 store2 ys2 h2
        have hlen2 : store1.length ≤ st'.length := by
          rw [← hst, he2]; simp
        subst hys
        refine ⟨by simp [hlen], ?_⟩
        intro i hi hy
        cases i with
        | zero =>
          constructor
          · intro himg
            cases x with
            | image id =>
              simp only [_imageize, Option.some.injEq, Prod.mk.injEq] at h1
              simp [← h1.2]
            | num c => simp [isImageValue] at himg
            | str s => simp [isImageValue] at himg
            | boolean b => simp [isImageValue] at himg
            | arr l => simp [isImageValue] at himg
          · intro c hc
            have hx : x = Value.num c := hc
            rw [hx] at h1
            simp only [_imageize, Option.some.injEq, Prod.mk.injEq] at h1
            refine ⟨store.length, by simp [← h1.2], le_refl _, ?_, ?_, ?_⟩
            · calc store.length < store1.length := by
                    rw [← h1.1]; simp
                _ ≤ st'.length := hlen2
            · rw [← hst, he2, ← h1.1, List.append_assoc]
              exact refsAt_append_self store _ _
            · rw [← hst, he2, ← h1.1, List.append_assoc]
              exact dataAt_append_self store _ _
        | succ i =>
          have hi' : i < rest.length := by simpa using hi
          have hy' : i < ys2.length := by simpa using hy
          have he := helem i hi' hy'
          constructor
          · exact he.1
          · intro c hc
            obtain ⟨j, hj1, hj2, hj3, hj4, hj5⟩ := he.2 c hc
            refine ⟨j, hj1, le_trans hlen1 hj2, hj3, hj4, ?_⟩
            rw [hj5, he1, dataAt_append_lt _ _ _ hm]

/-- C7: the match unit is the first ProcessingUnit found by a depth-first,
left-to-right search through the positional arguments, descending into
nested sequences; when a match unit exists and the declared type is
processing-unit, a bare scalar constant is promoted into a fresh unit of
the match unit's shape (a ProcessingUnit passes through untouched), and for
array-of-processing-unit arguments the promotion is element-wise; when no
ProcessingUnit occurs anywhere among the positional inputs, every constant
argument is passed through to the engine unmodified. -/
theorem match_unit_promotion :
    (∀ args : List Value,
      _find_inside isImageValue (Value.arr args) = specFirstUnit args) ∧
    (∀ (store : Store) (m f : Nat) (c : Int), hasFlag f _MODIFY = false →
      opSet store (some m) GType.image f (Value.num c) =
        .ok (store ++ [⟨(dataAt store m).map (fun _ => c), ∅⟩],
          Value.image store.length)) ∧
    (∀ (store : Store) (m f id : Nat), hasFlag f _MODIFY = false →
      opSet store (some m) GType.image f (Value.image id) =
        .ok (store, Value.image id)) ∧
    (∀ (m : Nat) (elts : List Value) (store st' : Store) (ys : List Value),
      m < store.length → imageizeList store m elts = some (st', ys) →
      ys.length = elts.length ∧
      ∀ i (hi : i < elts.length) (hy : i < ys.length),
        (isImageValue (elts.get ⟨i, hi⟩) = true →
          ys.get ⟨i, hy⟩ = elts.get ⟨i, hi⟩) ∧
        (∀ c, elts.get ⟨i, hi⟩ = Value.num c →
          ∃ j, ys.get ⟨i, hy⟩ = Value.image j ∧ store.length ≤ j ∧
            j < st'.length ∧ refsAt st' j = ∅ ∧
            dataAt st' j = (dataAt store m).map (fun _ => c))) ∧
    (∀ (args : List Value) (store : Store) (g : GType) (f : Nat) (v : Value),
      specFirstUnit args = none → hasFlag f _MODIFY = false →
      matchImageId args = none ∧
        opSet store (matchImageId args) g f v = .ok (store, v)) := by
  have hfind : ∀ args : List Value,
      _find_inside isImageValue (Value.arr args) = specFirstUnit args := by
    intro args
    rw [_find_inside_spec]
    simp [flattenPre, specFirstUnit, List.find?_cons, isImageValue]
  refine ⟨hfind, ?_, ?_, ?_, ?_⟩
  · intro store m f c hf
    simp [opSet, promoteValue, _imageize, hf]
  · intro store m f id hf
    simp [opSet, promoteValue, _imageize, hf]
  · intro m elts store st' ys hm h
    exact imageizeList_elementwise m elts store st' ys hm h
  · intro args store g f v hnone hf
    have hmi : matchImageId args = none := by
      rw [matchImageId, hfind args, hnone]
    exact ⟨hmi, by rw [hmi]; exact opSet_passthrough store g f v hf⟩

theorem match_unit_promotion_witness :
    _find_inside isImageValue
        (Value.arr [Value.num 1, Value.arr [Value.image 4], Value.image 9]) =
      some (Value.image 4) ∧
    opSet exStore (some 0) GType.image 19 (Value.num 3) =
      .ok (exStore ++ [⟨[3], ∅⟩], Value.image 2) ∧
    matchImageId [Value.num 1] = none ∧
    opSet exStore (matchImageId [Value.num 1]) GType.image 19 (Value.num 3) =
      .ok (exStore, Value.num 3) := by
  have h := match_unit_promotion
  have h5 := h.2.2.2.2 [Value.num 1] exStore GType.image 19 (Value.num 3)
    (by decide) (by decide)
  refine ⟨?_, ?_, h5.1, h5.2⟩
  · rw [h.1]
    decide
  · rw [h.2.1 exStore 0 19 3 (by decide)]
    decide

/-- C8: the four classification lists are built from the argument flags
exactly as specified: input+required+not-deprecated arguments go to
`required_input`, with modify-in-place ones also appended to
`required_output`; output+required+not-deprecated arguments go to
`required_output`; non-required inputs (deprecated ones retained) go to
`optional_input`; non-required outputs go to `optional_output`; and for
distinct argument names with a single direction per argument the lists are
pairwise disjoint, except that `required_output` may overlap
`required_input` exactly for modify-in-place arguments. -/
theorem classification_lists (arguments : List (String × Nat))
    (hnodup : (arguments.map Prod.fst).Nodup)
    (hdir : ∀ a ∈ arguments,
      ¬(hasFlag a.2 _INPUT = true ∧ hasFlag a.2 _OUTPUT = true)) :
    classify arguments =
      ⟨reqInF arguments, optInF arguments, reqOutF arguments,
        optOutF arguments⟩ ∧
    (∀ n f, (n, f) ∈ arguments → isOptInput f = true →
      n ∈ (classify arguments).optional_input) ∧
    (∀ n, ¬(n ∈ (classify arguments).required_input ∧
      n ∈ (classify arguments).optional_input)) ∧
    (∀ n, ¬(n ∈ (classify arguments).required_input ∧
      n ∈ (classify arguments).optional_output)) ∧
    (∀ n, ¬(n ∈ (classify arguments).required_output ∧
      n ∈ (classify arguments).optional_input)) ∧
    (∀ n, ¬(n ∈ (classify arguments).required_output ∧
      n ∈ (classify arguments).optional_output)) ∧
    (∀ n, ¬(n ∈ (classify arguments).optional_input ∧
      n ∈ (classify arguments).optional_output)) ∧
    (∀ n, n ∈ (classify arguments).required_input →
      n ∈ (classify arguments).required_output →
      ∃ f, (n, f) ∈ arguments ∧ hasFlag f _MODIFY = true ∧
        isReqInput f = true) ∧
    (∀ n f, (n, f) ∈ arguments → isReqInput f = true →
      hasFlag f _MODIFY = true →
      n ∈ (classify arguments).required_input ∧
        n ∈ (classify arguments).required_output) := by
  have hc := classify_closed arguments
  rw [hc]
  dsimp only
  refine ⟨rfl, ?_, ?_, ?_, ?_, ?_, ?_, ?_, ?_⟩
  · intro n f hmem hf
    exact (mem_optInF arguments n).mpr ⟨f, hmem, hf⟩
  · rintro n ⟨h1, h2⟩
    obtain ⟨f1, hm1, hf1⟩ := (mem_reqInF arguments n).mp h1
    obtain ⟨f2, hm2, hf2⟩ := (mem_optInF arguments n).mp h2
    have := flags_eq_of_nodup arguments hnodup hm1 hm2
    subst this
    simp only [isReqInput, isOptInput, Bool.and_eq_true,
      Bool.not_eq_true'] at hf1 hf2
    rw [hf1.1.2] at hf2
    exact Bool.true_eq_false.mp hf2.2
  · rintro n ⟨h1, h2⟩
    obtain ⟨f1, hm1, hf1⟩ := (mem_reqInF arguments n).mp h1
    obtain ⟨f2, hm2, hf2⟩ := (mem_optOutF arguments n).mp h2
    have := flags_eq_of_nodup arguments hnodup hm1 hm2
    subst this
    simp only [isReqInput, isOptOutput, Bool.and_eq_true,
      Bool.not_eq_true'] at hf1 hf2
    rw [hf1.1.2] at hf2
    exact Bool.true_eq_false.mp hf2.2
  · rintro n ⟨h1, h2⟩
    obtain ⟨f1, hm1, hf1⟩ := (mem_reqOutF arguments n).mp h1
    obtain ⟨f2, hm2, hf2⟩ := (mem_optInF arguments n).mp h2
    have := flags_eq_of_nodup arguments hnodup hm1 hm2
    subst this
    simp only [isOptInput, Bool.and_eq_true, Bool.not_eq_true'] at hf2
    rcases hf1 with hf1 | hf1
    · simp only [isReqInput, Bool.and_eq_true, Bool.not_eq_true'] at hf1
      rw [hf1.1.1.2] at hf2
      exact Bool.true_eq_false.mp hf2.2
    · simp only [isReqOutput, Bool.and_eq_true, Bool.not_eq_true'] at hf1
      exact hdir (n, f1) hm1 ⟨hf2.1, hf1.1.1⟩
  · rintro n ⟨h1, h2⟩
    obtain ⟨f1, hm1, hf1⟩ := (mem_reqOutF arguments n).mp h1
    obtain ⟨f2, hm2, hf2⟩ := (mem_optOutF arguments n).mp h2
    have := flags_eq_of_nodup arguments hnodup hm1 hm2
    subst this
    simp only [isOptOutput, Bool.and_eq_true, Bool.not_eq_true'] at hf2
    rcases hf1 with hf1 | hf1
    · simp only [isReqInput, Bool.and_eq_true, Bool.not_eq_true'] at hf1
      rw [hf1.1.1.2] at hf2
      exact Bool.true_eq_false.mp hf2.2
    · simp only [isReqOutput, Bool.and_eq_true, Bool.not_eq_true'] at hf1
      rw [hf1.1.2] at hf2
      exact Bool.true_eq_false.mp hf2.2
  · rintro n ⟨h1, h2⟩
    obtain ⟨f1, hm1, hf1⟩ := (mem_optInF arguments n).mp h1
    obtain ⟨f2, hm2, hf2⟩ := (mem_optOutF arguments n).mp h2
    have := flags_eq_of_nodup arguments hnodup hm1 hm2
    subst this
    simp only [isOptInput, isOptOutput, Bool.and_eq_true,
      Bool.not_eq_true'] at hf1 hf2
    exact hdir (n, f1) hm1 ⟨hf1.1, hf2.1⟩
  · intro n h1 h2
    obtain ⟨f1, hm1, hf1⟩ := (mem_reqInF arguments n).mp h1
    obtain ⟨f2, hm2, hf2⟩ := (mem_reqOutF arguments n).mp h2
    have := flags_eq_of_nodup arguments hnodup hm1 hm2
    subst this
    rcases hf2 with hf2 | hf2
    · simp only [Bool.and_eq_true] at hf2
      exact ⟨f1, hm1, hf2.2, hf2.1⟩
    · exfalso
      simp only [isReqInput, Bool.and_eq_true, Bool.not_eq_true'] at hf1
      simp only [isReqOutput, Bool.and_eq_true, Bool.not_eq_true'] at hf2
      exact hdir (n, f1) hm1 ⟨hf1.1.1, hf2.1.1⟩
  · intro n f hmem hreq hmod
    constructor
    · exact (mem_reqInF arguments n).mpr ⟨f, hmem, hreq⟩
    · exact (mem_reqOutF arguments n).mpr
        ⟨f, hmem, Or.inl (by rw [Bool.and_eq_true]; exact ⟨hreq, hmod⟩)⟩

theorem classification_lists_witness :
    classify [("a", 19), ("img", 147), ("o", 35), ("p", 18), ("q", 34)] =
      ⟨["a", "img"], ["p"], ["img", "o"], ["q"]⟩ ∧
    (∃ f, ("img", f) ∈
        [("a", 19), ("img", 147), ("o", 35), ("p", 18), ("q", 34)] ∧
      hasFlag f _MODIFY = true ∧ isReqInput f = true) := by
  have h := classification_lists
    [("a", 19), ("img", 147), ("o", 35), ("p", 18), ("q", 34)]
    (by decide) (by decide)
  refine ⟨by rw [h.1]; decide, ?_⟩
  exact h.2.2.2.2.2.2.2.1 "img" (by decide) (by decide)

/-- C2 counterexample: a named argument that is not an argument of the
operation at all makes the call fail with a `KeyError` from the
`intro.details[name]` lookup (which precedes the membership check), not
with the unsupported-option error the claim requires. -/
theorem unknown_kwarg_keyerror_counterexample :
    call exIntro exEng exStore [Value.image 0, Value.image 1]
        [("banana", Value.num 1)] = .error (Err.keyError "banana") ∧
    Err.keyError "banana" ≠ Err.unsupportedOption "add" "banana" := by
  exact ⟨rfl, by decide⟩

/-- C2 amended: for a named argument other than the reserved
`string_options`, reached first by the kwargs loop after the positional
inputs marshaled successfully: if the name is an argument of the operation
but in neither `optional_input` nor `optional_output`, the call fails with
the unsupported-option error naming the operation and the key; if the name
is not an argument of the operation at all, the call instead fails with a
`KeyError` on the details lookup. -/
theorem unsupported_option_amended (intro : Introspect) (eng : Engine)
    (store st1 : Store) (args : List Value) (name : String) (value : Value)
    (rest : List (String × Value)) (refs1 : Finset Nat) (a1 : OpArgs)
    (harity : args.length = intro.required_input.length)
    (hso : name ≠ "string_options")
    (hstr : eng.setStringOk
      ((((name, value) :: rest).lookup "string_options").getD (Value.str "")) =
        true)
    (hreq : setRequiredLoop intro (matchImageId args) store ∅
      (intro.required_input.zip args) [] = .ok (st1, refs1, a1)) :
    (intro.details name = none →
      call intro eng store args ((name, value) :: rest) =
        .error (Err.keyError name)) ∧
    (∀ d, intro.details name = some d → name ∉ intro.optional_input →
      name ∉ intro.optional_output →
      call intro eng store args ((name, value) :: rest) =
        .error (Err.unsupportedOption intro.name name)) := by
  have hfilter : ((name, value) :: rest).filter
      (fun p => p.1 != "string_options") =
      (name, value) :: rest.filter (fun p => p.1 != "string_options") := by
    rw [List.filter_cons, if_pos (by simpa using hso)]
  have hbase : ∀ e : Err,
      setKwargsLoop intro (matchImageId args) st1 refs1
        ((name, value) :: rest.filter (fun p => p.1 != "string_options")) a1 =
        .error e →
      call intro eng store args ((name, value) :: rest) = .error e := by
    intro e he
    rw [call_eq_afterPop, hfilter]
    unfold callAfterPop
    rw [if_neg (by simp [harity]), if_neg (by simp [hstr])]
    dsimp only
    rw [hreq]
    dsimp only
    rw [he]
  constructor
  · intro hnone
    apply hbase
    rw [setKwargsLoop, hnone]
  · intro d hsome hoi hoo
    apply hbase
    rw [setKwargsLoop, hsome]
    dsimp only
    rw [if_pos ⟨hoi, hoo⟩]

theorem unsupported_option_amended_witness :
    call exIntro exEng exStore [Value.image 0, Value.image 1]
        [("left", Value.num 1)] =
      .error (Err.unsupportedOption "add" "left") := by
  have h := unsupported_option_amended exIntro exEng exStore exStore
    [Value.image 0, Value.image 1] "left" (Value.num 1) [] ({0, 1} : Finset Nat)
    [("left", 19, Value.image 0), ("right", 19, Value.image 1)]
    (by decide) (by decide) (by decide) (by decide)
  exact h.2 ⟨"left", 19, GType.image⟩ (by decide) (by decide) (by decide)

theorem string_options_reserved_witness :
    call exIntro exEng exStore [Value.image 0, Value.image 1]
        [("string_options", Value.str "x")] =
      callAfterPop exIntro exEng exStore [Value.image 0, Value.image 1]
        (Value.str "x") [] ∧
    call exIntro exEng exStore [Value.image 0, Value.image 1] [] ≠
      .error (Err.unsupportedOption "add" "string_options") := by
  have h := string_options_reserved exIntro exEng exStore
    [Value.image 0, Value.image 1] (Value.str "x") [] []
    (fun p hp => absurd hp (List.not_mem_nil p))
  exact ⟨h.1, h.2.2⟩

end Pyvips
